import Mathlib

set_option maxRecDepth 10000

/-!
Verification development for the perplexity-mcp repository.

Strings from the TypeScript source are shallowly embedded as `List Char`;
JavaScript string operations (split, indexOf, substring, trim, toLowerCase,
regex matching used by the code) are given executable Lean counterparts.
JS numbers are embedded as `Nat`/`ℚ` where the source only performs exact
arithmetic on them; the one floating-point comparison (the standard-deviation
conflict test in `analyzeConsistency`) is embedded by squaring both sides of
the real-valued inequality, which is exact for nonnegative operands.
-/

/-! ## Generic string helpers (JS string-operation semantics) -/

/-- Lower-case a string character-wise (model of `String.prototype.toLowerCase`). -/
def toLowerStr (s : List Char) : List Char := s.map Char.toLower

/-- Whitespace test used for JS `\s`, `trim`, `trimEnd`. -/
def isWS (c : Char) : Bool := c.isWhitespace

theorem length_dropWhile_le (p : Char → Bool) (l : List Char) :
    (l.dropWhile p).length ≤ l.length := by
  induction l with
  | nil => simp [List.dropWhile]
  | cons c rest ih =>
    simp only [List.dropWhile]
    split
    · exact Nat.le_succ_of_le ih
    · exact Nat.le_refl _

/-- Model of JS `s.split(/\s+/)`: each maximal whitespace run is one separator,
so leading/trailing runs produce empty pieces and `""` splits to `[""]`.
(A whitespace character opens a new piece only when it is the last character
of its separator run.) -/
def splitWS (s : List Char) : List (List Char) :=
  match s with
  | [] => [[]]
  | c :: rest =>
    if isWS c then
      if (rest.head?.map isWS).getD false then splitWS rest
      else [] :: splitWS rest
    else
      match splitWS rest with
      | [] => [[c]]
      | l :: ls => (c :: l) :: ls

/-- Model of JS `s.split('\n')`. -/
def splitLines (s : List Char) : List (List Char) :=
  match s with
  | [] => [[]]
  | c :: rest =>
    if c = '\n' then [] :: splitLines rest
    else
      match splitLines rest with
      | [] => [[c]]
      | l :: ls => (c :: l) :: ls

/-- Model of JS `s.includes(pat)` (substring containment). -/
def isSubstr (pat : List Char) : List Char → Bool
  | [] => pat.isEmpty
  | c :: rest => pat.isPrefixOf (c :: rest) || isSubstr pat rest

/-- Model of JS `s.indexOf(pat)` (as `Option Nat` instead of `-1`). -/
def firstIdx (pat : List Char) : List Char → Option Nat
  | [] => if pat.isEmpty then some 0 else none
  | c :: rest =>
    if pat.isPrefixOf (c :: rest) then some 0
    else (firstIdx pat rest).map (· + 1)

/-- Model of JS `s.trimEnd()`. -/
def trimEnd (s : List Char) : List Char := (s.reverse.dropWhile isWS).reverse

/-- Model of JS `s.trim()`. -/
def trimStr (s : List Char) : List Char := trimEnd (s.dropWhile isWS)

/-- Decimal digit character for a value below 10. -/
def digitChar (n : Nat) : Char := Char.ofNat (48 + n)

/-- Fuelled worker for `natRepr` (the fuel `n + 1` always suffices, since the
argument at least halves per step; fuel keeps the recursion structural so that
the kernel can evaluate it). -/
def natReprAux : Nat → Nat → List Char
  | 0, _ => []
  | fuel + 1, n =>
    if n < 10 then [digitChar n] else natReprAux fuel (n / 10) ++ [digitChar (n % 10)]

/-- Decimal rendering of a nonnegative JS number (model of number-to-string). -/
def natRepr (n : Nat) : List Char := natReprAux (n + 1) n

/-- Fuelled worker grouping a reversed digit list in threes with commas. -/
def group3Aux : Nat → List Char → List Char
  | 0, ds => ds
  | fuel + 1, ds =>
    if ds.length ≤ 3 then ds else ds.take 3 ++ ',' :: group3Aux fuel (ds.drop 3)

/-- Model of `n.toLocaleString()` for nonnegative integers (en-US style grouping). -/
def groupNat (n : Nat) : List Char :=
  (group3Aux (natRepr n).length (natRepr n).reverse).reverse

/-! ## API Client model (src/perplexity.ts) -/

/-- The closed model enumeration from `types.ts`. -/
inductive PerplexityModel where
  | sonar
  | sonarPro
  | sonarReasoningPro
  | sonarDeepResearch
deriving DecidableEq, Repr

/-- The wire identifier of each model. -/
def modelName : PerplexityModel → List Char
  | .sonar => ("sonar").data
  | .sonarPro => ("sonar-pro").data
  | .sonarReasoningPro => ("sonar-reasoning-pro").data
  | .sonarDeepResearch => ("sonar-deep-research").data

/-- `SYSTEM_PROMPTS.general` from `perplexity.ts`. -/
def systemPromptGeneral : List Char :=
  ("You are a research assistant. Provide comprehensive, well-cited answers. Be thorough but concise.").data

structure ChatMessage where
  role : List Char
  content : List Char
deriving DecidableEq, Repr

/-- Caller-supplied `Partial<PerplexityRequest>` options of `search`. -/
structure SearchOptions where
  model : Option PerplexityModel
  messages : Option (List ChatMessage)
  max_tokens : Option Nat
  temperature : Option ℚ
  top_p : Option ℚ
  search_domain_filter : Option (List (List Char))
  search_recency_filter : Option (List Char)
  return_citations : Option Bool
  return_images : Option Bool
  return_related_questions : Option Bool
  stream : Option Bool
deriving DecidableEq

/-- The fully-built request body of `search`. -/
structure PerplexityRequest where
  model : PerplexityModel
  messages : List ChatMessage
  max_tokens : Nat
  temperature : ℚ
  top_p : Option ℚ
  search_domain_filter : Option (List (List Char))
  search_recency_filter : Option (List Char)
  return_citations : Bool
  return_images : Option Bool
  return_related_questions : Option Bool
  stream : Option Bool
deriving DecidableEq

/-- Request construction performed by `PerplexityClient.search` (perplexity.ts
lines 44-65): one system message (caller's first message when tagged system,
else the general default), one user message with the query, `options.messages`
destructured away before the spread, defaults `max_tokens 4000`,
`temperature 0.2`, `return_citations true` unless overridden (the spread of the
remaining options reinstates caller-supplied values, including falsy ones). -/
def buildSearchRequest (query : List Char) (model : PerplexityModel)
    (opts : SearchOptions) : PerplexityRequest :=
  let systemPrompt :=
    match opts.messages with
    | some (m :: _) => if m.role = ("system").data then m.content else systemPromptGeneral
    | _ => systemPromptGeneral
  { model := opts.model.getD model
    messages := [⟨("system").data, systemPrompt⟩, ⟨("user").data, query⟩]
    max_tokens := opts.max_tokens.getD 4000
    temperature := opts.temperature.getD (0.2 : ℚ)
    top_p := opts.top_p
    search_domain_filter := opts.search_domain_filter
    search_recency_filter := opts.search_recency_filter
    return_citations := opts.return_citations.getD true
    return_images := opts.return_images
    return_related_questions := opts.return_related_questions
    stream := opts.stream }

/-- Rule-1 keyword test of `analyzeQueryForModel` (deep-research indicators). -/
def deepResearchCue (ql : List Char) : Bool :=
  isSubstr ("comprehensive").data ql ||
  isSubstr ("exhaustive").data ql ||
  isSubstr ("deep dive").data ql ||
  isSubstr ("research report").data ql ||
  isSubstr ("due diligence").data ql ||
  isSubstr ("market analysis").data ql

/-- Rule-2 keyword test of `analyzeQueryForModel` (reasoning indicators). -/
def reasoningCue (ql : List Char) : Bool :=
  isSubstr ("why").data ql ||
  isSubstr ("how does").data ql ||
  isSubstr ("explain").data ql ||
  isSubstr ("analyze").data ql ||
  isSubstr ("compare").data ql ||
  isSubstr ("evaluate").data ql ||
  isSubstr ("trade-off").data ql ||
  isSubstr ("pros and cons").data ql ||
  isSubstr ("debug").data ql ||
  isSubstr ("troubleshoot").data ql ||
  isSubstr ("root cause").data ql

/-- Rule-3 keyword test of `analyzeQueryForModel` (simple factual lookup). -/
def factualCue (ql : List Char) : Bool :=
  isSubstr ("what is").data ql ||
  isSubstr ("who is").data ql ||
  isSubstr ("when did").data ql ||
  isSubstr ("where is").data ql ||
  ("define ").data.isPrefixOf ql ||
  isSubstr ("current price").data ql ||
  isSubstr ("latest").data ql

structure ModelRecommendation where
  recommended : PerplexityModel
  reason : List Char
deriving DecidableEq

/-- `PerplexityClient.analyzeQueryForModel` (perplexity.ts lines 96-160):
case-insensitive keyword classification in fixed priority order. -/
def analyzeQueryForModel (query : List Char) : ModelRecommendation :=
  let queryLower := toLowerStr query
  let wordCount := (splitWS query).length
  if deepResearchCue queryLower then
    ⟨.sonarDeepResearch, ("Query requests comprehensive/exhaustive research").data⟩
  else if reasoningCue queryLower then
    ⟨.sonarReasoningPro, ("Query requires reasoning, analysis, or causal explanation").data⟩
  else if wordCount < 10 && factualCue queryLower then
    ⟨.sonar, ("Simple factual lookup query").data⟩
  else
    ⟨.sonarReasoningPro, ("Default model for comprehensive analysis with reasoning traces").data⟩

/-! ## Claim C4 -/

/-- C4: `analyzeQueryForModel` evaluates its keyword rules in fixed priority
order, so every query whose lower-cased text matches a rule-1 (deep-research)
keyword resolves to the deep-research model even when it also matches a rule-2
(reasoning) keyword — never to the reasoning model. -/
theorem c4_priority_order (query : List Char)
    (h1 : deepResearchCue (toLowerStr query) = true)
    (h2 : reasoningCue (toLowerStr query) = true) :
    (analyzeQueryForModel query).recommended = PerplexityModel.sonarDeepResearch ∧
    (analyzeQueryForModel query).recommended ≠ PerplexityModel.sonarReasoningPro := by
  refine ⟨?_, ?_⟩ <;> simp [analyzeQueryForModel, h1]

/-- Witness for C4 on the spec's own example query, which matches both the
rule-1 keyword `comprehensive` and the rule-2 keyword `why`. -/
theorem c4_priority_order_witness :
    deepResearchCue (toLowerStr ("comprehensive analysis of why the market crashed").data) = true ∧
    reasoningCue (toLowerStr ("comprehensive analysis of why the market crashed").data) = true ∧
    (analyzeQueryForModel ("comprehensive analysis of why the market crashed").data).recommended
      = PerplexityModel.sonarDeepResearch :=
  ⟨by decide, by decide,
    (c4_priority_order ("comprehensive analysis of why the market crashed").data
      (by decide) (by decide)).1⟩

/-! ## Claim C5 -/

/-- C5: the request built by `search` carries exactly two messages — one system
message first (the caller's first message content when tagged `system`, else
the general default prompt) and then one user message carrying the query; every
caller-supplied message after the first is discarded (the request is unchanged
when they are dropped), and the generation parameters are `max_tokens 4000`,
`temperature 0.2`, citations on, except where the caller supplies a value. -/
theorem c5_search_request (query : List Char) (model : PerplexityModel) (opts : SearchOptions) :
    (buildSearchRequest query model opts).messages.length = 2 ∧
    ((buildSearchRequest query model opts).messages.filter
        (fun m => m.role = ("system").data)).length = 1 ∧
    (buildSearchRequest query model opts).messages.head? =
      some ⟨("system").data,
        match opts.messages with
        | some (m :: _) => if m.role = ("system").data then m.content else systemPromptGeneral
        | _ => systemPromptGeneral⟩ ∧
    (buildSearchRequest query model opts).messages.getLast? = some ⟨("user").data, query⟩ ∧
    (∀ (m : ChatMessage) (rest : List ChatMessage),
      buildSearchRequest query model { opts with messages := some (m :: rest) } =
        buildSearchRequest query model { opts with messages := some [m] }) ∧
    (buildSearchRequest query model { opts with messages := none } =
      buildSearchRequest query model { opts with messages := some [] }) ∧
    (buildSearchRequest query model opts).max_tokens = opts.max_tokens.getD 4000 ∧
    (buildSearchRequest query model opts).temperature = opts.temperature.getD (0.2 : ℚ) ∧
    (buildSearchRequest query model opts).return_citations = opts.return_citations.getD true := by
  refine ⟨rfl, ?_, rfl, rfl, ?_, rfl, rfl, rfl, rfl⟩
  · rfl
  · intro m rest
    rfl

/-! ## Synthesis Engine model (src/synthesis.ts) -/

/-- The four named synthesis patterns. -/
inductive SynthesisPattern where
  | factReasoning
  | quickDeep
  | truthtracer
  | multiPerspective
deriving DecidableEq, Repr

/-- `getModelsForPattern` (synthesis.ts lines 72-85). The source's `default`
branch is unreachable for the closed pattern enumeration. -/
def getModelsForPattern : SynthesisPattern → List PerplexityModel
  | .factReasoning => [.sonarPro, .sonarReasoningPro]
  | .quickDeep => [.sonar, .sonarDeepResearch]
  | .truthtracer => [.sonarPro, .sonarReasoningPro, .sonarDeepResearch]
  | .multiPerspective => [.sonarPro, .sonarReasoningPro]

structure PerplexityUsage where
  prompt_tokens : Nat
  completion_tokens : Nat
  total_tokens : Nat
  citation_tokens : Option Nat
  num_search_queries : Option Nat
  reasoning_tokens : Option Nat
deriving DecidableEq, Repr

structure ResponseChoice where
  index : Nat
  message : ChatMessage
  finish_reason : List Char
deriving DecidableEq, Repr

structure PerplexityResponse where
  id : List Char
  model : List Char
  created : Nat
  choices : List ResponseChoice
  citations : Option (List (List Char))
  related_questions : Option (List (List Char))
  usage : PerplexityUsage
deriving DecidableEq, Repr

theorem firstIdx_le (pat : List Char) :
    ∀ (s : List Char) (i : Nat), firstIdx pat s = some i → i + pat.length ≤ s.length := by
  intro s
  induction s with
  | nil =>
    intro i h
    simp only [firstIdx] at h
    by_cases hp : pat.isEmpty
    · rw [if_pos hp] at h
      have hpe : pat = [] := List.isEmpty_iff.mp hp
      cases h
      simp [hpe]
    · simp [hp] at h
  | cons c rest ih =>
    intro i h
    simp only [firstIdx] at h
    by_cases hp : pat.isPrefixOf (c :: rest)
    · simp only [hp, if_true, Option.some.injEq] at h
      subst h
      have := ( List.isPrefixOf_iff_prefix.mp hp).length_le
      simpa using this
    · rw [if_neg hp] at h
      obtain ⟨i', hi', rfl⟩ := Option.map_eq_some'.mp h
      have := ih i' hi'
      simp only [List.length_cons]
      omega

/-- Fuelled worker for `stripThinkRaw` (each step removes a block of at least
15 characters, so fuel `s.length` always suffices; fuel keeps the recursion
structural so that the kernel can evaluate it). -/
def stripThinkAux : Nat → List Char → List Char
  | 0, s => s
  | fuel + 1, s =>
    match firstIdx ("<think>").data s with
    | none => s
    | some i =>
      match firstIdx ("</think>").data (s.drop (i + 7)) with
      | none => s
      | some j => s.take i ++ stripThinkAux fuel ((s.drop (i + 7)).drop (j + 8))

/-- `stripThinkingBlocks` without the final trim: remove every (non-greedy)
`<think>...</think>` block, scanning left to right as the global regex does. -/
def stripThinkRaw (s : List Char) : List Char := stripThinkAux s.length s

/-- `stripThinkingBlocks` from synthesis.ts / research-store.ts. -/
def stripThinkingBlocks (s : List Char) : List Char := trimStr (stripThinkRaw s)

/-- Per-step result collected by `synthesize` (synthesis.ts lines 14-19). -/
structure ModelResult where
  model : PerplexityModel
  response : PerplexityResponse
  content : List Char
  citations : List (List Char)
deriving DecidableEq, Repr

/-- The four confidence levels of a `SynthesisResult`. -/
inductive Confidence where
  | low
  | medium
  | mediumHigh
  | high
deriving DecidableEq, Repr

structure SynthesisFinding where
  model : PerplexityModel
  content : List Char
  citations : List (List Char)
deriving DecidableEq, Repr

structure SynthesisResult where
  summary : List Char
  findings : List SynthesisFinding
  agreements : List (List Char)
  conflicts : List (List Char)
  confidence : Confidence
  allCitations : List (List Char)
deriving DecidableEq, Repr

/-- Worker of `deduplicateCitations`: the mutable `Set` of seen URLs is the
`seen` accumulator, consulted only through membership. -/
def dedupGo (seen : List (List Char)) : List (List Char) → List (List Char)
  | [] => []
  | u :: us => if u ∈ seen then dedupGo seen us else u :: dedupGo (u :: seen) us

/-- `deduplicateCitations` (synthesis.ts lines 126-133): filter keeping the
first occurrence of each URL. -/
def deduplicateCitations (citations : List (List Char)) : List (List Char) :=
  dedupGo [] citations

/-- The conflict test of `analyzeConsistency` (synthesis.ts lines 162-169):
population standard deviation of content lengths exceeds half the mean.
The source compares `Math.sqrt(variance) > avgLength * 0.5` with
`avgLength = (Σ l) / n` and `variance = (Σ (l - avgLength)^2) / n`; both sides
are nonnegative, so over the reals the comparison is
`variance > avgLength^2 / 4`, and clearing the positive denominators
(`Σ (l - S/n)^2 = Σ (n·l - S)^2 / n^2` with `S = Σ l`) turns it into the
equivalent integer comparison `4 · Σ (n·l - S)^2 > n · S^2`, evaluated here
exactly over `ℤ`. -/
def contentVarianceConflict (results : List ModelResult) : Bool :=
  let lengths : List Int := results.map (fun r => ((r.content.length : Int)))
  let n : Int := ((results.length : Int))
  let s : Int := lengths.foldl (fun a b => a + b) 0
  let scaledSquares : Int :=
    lengths.foldl (fun a b => a + (n * b - s) * (n * b - s)) 0
  decide (4 * scaledSquares > n * (s * s))

/-- The common-citation list of `analyzeConsistency` (synthesis.ts lines
152-156): the first result's citation list filtered to URLs present in every
step's citation set (occurrences in the first list are kept as-is). -/
def commonCitationsOf (results : List ModelResult) : List (List Char) :=
  (match results.head? with
   | some r => r.citations
   | none => []).filter (fun url => results.all (fun r => decide (url ∈ r.citations)))

/-- `analyzeConsistency` (synthesis.ts lines 138-182): citation-overlap
agreement note, content-length-variance conflict note, and the confidence
ladder. -/
def analyzeConsistency (results : List ModelResult) :
    List (List Char) × List (List Char) × Confidence :=
  if results.length < 2 then ([], [], Confidence.medium)
  else
    let commonCitations := commonCitationsOf results
    let agreements :=
      if commonCitations.length > 2 then
        [natRepr commonCitations.length ++ (" sources cited by all models").data]
      else []
    let conflicts :=
      if contentVarianceConflict results then
        [("Significant variance in response depth between models").data]
      else []
    let confidence :=
      if commonCitations.length > 3 ∧ conflicts.length = 0 then Confidence.high
      else if commonCitations.length > 1 then Confidence.mediumHigh
      else if conflicts.length > 1 then Confidence.low
      else Confidence.medium
    (agreements, conflicts, confidence)

/-- Join a list of strings with a separator (model of `Array.prototype.join`). -/
def joinSep (sep : List Char) : List (List Char) → List Char
  | [] => []
  | [s] => s
  | s :: rest => s ++ sep ++ joinSep sep rest

/-- Pattern description used by `generateSummary`. -/
def patternDescription : SynthesisPattern → List Char
  | .factReasoning => ("Factual research followed by reasoning analysis").data
  | .quickDeep => ("Quick assessment followed by deep research").data
  | .truthtracer => ("Comprehensive fact-check with reasoning verification").data
  | .multiPerspective => ("Multi-perspective analysis").data

/-- Wire name of a confidence level. -/
def confidenceName : Confidence → List Char
  | .low => ("low").data
  | .medium => ("medium").data
  | .mediumHigh => ("medium-high").data
  | .high => ("high").data

/-- One numbered per-model block of `generateSummary`. -/
def summaryBlock (i : Nat) (r : ModelResult) : List Char :=
  ("### ").data ++ natRepr (i + 1) ++ (". ").data ++ modelName r.model ++ ("\n\n").data ++
  (if r.content.length > 500 then r.content.take 500 ++ ("...").data else r.content) ++
  ("\n\n*[").data ++ natRepr r.citations.length ++ (" citations]*\n").data

/-- `generateSummary` (synthesis.ts lines 187-229). `new Set(...).size` is the
length of the first-occurrence deduplication. -/
def generateSummary (query : List Char) (results : List ModelResult)
    (pattern : SynthesisPattern) (confidence : Confidence) : List Char :=
  let modelNames := joinSep (" → ").data (results.map (fun r => modelName r.model))
  let totalCitations := (deduplicateCitations (results.flatMap (fun r => r.citations))).length
  ("## Synthesis Summary\n\n**Query**: ").data ++ query ++
  ("\n**Pattern**: ").data ++ patternDescription pattern ++
  ("\n**Models**: ").data ++ modelNames ++
  ("\n**Total Sources**: ").data ++ natRepr totalCitations ++
  ("\n**Confidence**: ").data ++ confidenceName confidence ++
  ("\n\n---\n\n").data ++
  joinSep ("\n").data (results.mapIdx (fun i r => summaryBlock i r))

/-- `combineResults` (synthesis.ts lines 90-121). -/
def combineResults (query : List Char) (results : List ModelResult)
    (pattern : SynthesisPattern) : SynthesisResult :=
  let allCitations := deduplicateCitations (results.flatMap (fun r => r.citations))
  let findings := results.map (fun r =>
    ({ model := r.model, content := r.content, citations := r.citations } : SynthesisFinding))
  let a := analyzeConsistency results
  let summary := generateSummary query results pattern a.2.2
  { summary := summary
    findings := findings
    agreements := a.1
    conflicts := a.2.1
    confidence := a.2.2
    allCitations := allCitations }

/-- Build one `ModelResult` from a response, as the loop body of `synthesize`
does (synthesis.ts lines 54-63). -/
def mkModelResult (m : PerplexityModel) (resp : PerplexityResponse) : ModelResult :=
  let rawContent :=
    match resp.choices.head? with
    | some c => c.message.content
    | none => []
  { model := m
    response := resp
    content := stripThinkingBlocks rawContent
    citations := resp.citations.getD [] }

/-- Sequential execution of the pattern's model steps, with the API modelled
as an oracle from (step index, model) to a response or an error. Returns the
list of step indices actually invoked together with the outcome: the loop stops
at the first error, exactly as the `await` in the source raises out of the
`for` loop. -/
def runModels {ε : Type} (api : Nat → PerplexityModel → Except ε PerplexityResponse) :
    List PerplexityModel → Nat → List Nat × Except ε (List ModelResult)
  | [], _ => ([], Except.ok [])
  | m :: ms, i =>
    match api i m with
    | Except.error e => ([i], Except.error e)
    | Except.ok resp =>
      let rest := runModels api ms (i + 1)
      (i :: rest.1, rest.2.map (fun rs => mkModelResult m resp :: rs))

/-- `synthesize` (synthesis.ts lines 38-67): run the pattern's models in
sequence; on success combine the results, on failure propagate the error. -/
def synthesize {ε : Type} (api : Nat → PerplexityModel → Except ε PerplexityResponse)
    (query : List Char) (pattern : SynthesisPattern) : Except ε SynthesisResult :=
  match (runModels api (getModelsForPattern pattern) 0).2 with
  | Except.error e => Except.error e
  | Except.ok results => Except.ok (combineResults query results pattern)

/-! ## Claim C7 -/

/-- Reference deduplication, written from the spec's words: keep the first
occurrence of each URL, in order of first appearance. -/
def firstSeenDedup (l : List (List Char)) : List (List Char) :=
  l.foldl (fun acc u => if u ∈ acc then acc else acc ++ [u]) []

theorem dedupGo_eq_foldl (l : List (List Char)) :
    ∀ (seen acc : List (List Char)), (∀ u, u ∈ seen ↔ u ∈ acc) →
      l.foldl (fun acc u => if u ∈ acc then acc else acc ++ [u]) acc =
        acc ++ dedupGo seen l := by
  induction l with
  | nil => intro seen acc _; simp [dedupGo]
  | cons v vs ih =>
    intro seen acc hiff
    simp only [List.foldl_cons, dedupGo]
    by_cases hv : v ∈ seen
    · rw [if_pos ((hiff v).mp hv), if_pos hv]
      exact ih seen acc hiff
    · have hva : v ∉ acc := fun h => hv ((hiff v).mpr h)
      rw [if_neg hva, if_neg hv]
      rw [ih (v :: seen) (acc ++ [v]) ?_]
      · simp
      · intro u
        rw [List.mem_cons, List.mem_append, List.mem_singleton, hiff u, or_comm]

theorem dedupGo_count (u : List Char) :
    ∀ (l seen : List (List Char)),
      (dedupGo seen l).count u = if u ∈ l ∧ u ∉ seen then 1 else 0 := by
  intro l
  induction l with
  | nil => intro seen; simp [dedupGo]
  | cons v vs ih =>
    intro seen
    simp only [dedupGo]
    by_cases hv : v ∈ seen
    · rw [if_pos hv, ih seen]
      rcases eq_or_ne u v with rfl | hne
      · simp [hv]
      · simp [List.mem_cons, hne]
    · rw [if_neg hv, List.count_cons, ih (v :: seen)]
      rcases eq_or_ne u v with rfl | hne
      · simp [hv, List.mem_cons]
      · simp [List.mem_cons, hne, Ne.symm hne]

/-- C7: `deduplicateCitations` over the concatenated per-step citation lists is
exactly the reference first-occurrence-wins deduplication: each URL appears
exactly once (when present at all), in order of first appearance across the
steps, and the spec's example `[a,b,a,c]` with `[b,d]` combines to
`[a,b,c,d]`. The combined citation list of `combineResults` is this value. -/
theorem c7_dedup_first_seen (steps : List (List (List Char)))
    (query : List Char) (results : List ModelResult) (pattern : SynthesisPattern) :
    deduplicateCitations steps.flatten = firstSeenDedup steps.flatten ∧
    (∀ u, (deduplicateCitations steps.flatten).count u =
      if u ∈ steps.flatten then 1 else 0) ∧
    (combineResults query results pattern).allCitations =
      firstSeenDedup (results.flatMap (fun r => r.citations)) ∧
    deduplicateCitations
        ([("a").data, ("b").data, ("a").data, ("c").data] ++ [("b").data, ("d").data]) =
      [("a").data, ("b").data, ("c").data, ("d").data] := by
  refine ⟨?_, ?_, ?_, by decide⟩
  · rw [firstSeenDedup, dedupGo_eq_foldl steps.flatten [] [] (by simp), List.nil_append,
      deduplicateCitations]
  · intro u
    rw [deduplicateCitations, dedupGo_count u steps.flatten []]
    simp
  · show deduplicateCitations _ = _
    rw [firstSeenDedup, dedupGo_eq_foldl _ [] [] (by simp), List.nil_append,
      deduplicateCitations]

/-! ## Claim C6 -/

theorem runModels_first_error {ε : Type}
    (api : Nat → PerplexityModel → Except ε PerplexityResponse) (e : ε) :
    ∀ (ms : List PerplexityModel) (i k : Nat), k < ms.length →
      (∀ j, j < k → ∃ r, api (i + j) (ms.getD j PerplexityModel.sonar) = Except.ok r) →
      api (i + k) (ms.getD k PerplexityModel.sonar) = Except.error e →
      runModels api ms i = ((List.range (k + 1)).map (fun j => i + j), Except.error e) := by
  intro ms
  induction ms with
  | nil => intro i k hk; simp at hk
  | cons m ms ih =>
    intro i k hk hok herr
    cases k with
    | zero =>
      simp only [List.getD_cons_zero, Nat.add_zero] at herr
      simp only [runModels, herr]
      simp [List.range_succ]
    | succ k =>
      obtain ⟨r, hr⟩ := hok 0 (Nat.succ_pos k)
      simp only [List.getD_cons_zero, Nat.add_zero] at hr
      simp only [runModels, hr]
      have step : runModels api ms (i + 1) =
          ((List.range (k + 1)).map (fun j => i + 1 + j), Except.error e) := by
        refine ih (i + 1) k (by simpa using hk) ?_ ?_
        · intro j hj
          obtain ⟨r', hr'⟩ := hok (j + 1) (by omega)
          refine ⟨r', ?_⟩
          have : i + (j + 1) = i + 1 + j := by omega
          rw [this] at hr'
          simpa using hr'
        · have : i + (k + 1) = i + 1 + k := by omega
          rw [this] at herr
          simpa using herr
      rw [step]
      refine Prod.ext ?_ rfl
      show i :: (List.range (k + 1)).map (fun j => i + 1 + j) =
        (List.range (k + 1 + 1)).map (fun j => i + j)
      conv_rhs => rw [List.range_succ_eq_map, List.map_cons, List.map_map]
      rw [Nat.add_zero]
      refine congrArg (List.cons i) ?_
      refine List.map_congr_left ?_
      intro j _
      simp only [Function.comp]
      omega

/-- C6: `synthesize` runs the pattern's steps strictly in sequence and
propagates the first step failure: when every step before `k` succeeds and the
`k`-th API call fails with `e`, `synthesize` returns exactly that error, no
`SynthesisResult` is produced, and the invoked step indices are precisely
`0..k` — no later step is ever invoked. -/
theorem c6_first_failure_propagates {ε : Type}
    (api : Nat → PerplexityModel → Except ε PerplexityResponse)
    (query : List Char) (pattern : SynthesisPattern) (k : Nat) (e : ε)
    (hk : k < (getModelsForPattern pattern).length)
    (hok : ∀ j, j < k →
      ∃ r, api j ((getModelsForPattern pattern).getD j PerplexityModel.sonar) = Except.ok r)
    (he : api k ((getModelsForPattern pattern).getD k PerplexityModel.sonar) = Except.error e) :
    synthesize api query pattern = Except.error e ∧
    (runModels api (getModelsForPattern pattern) 0).1 = List.range (k + 1) := by
  have hrun := runModels_first_error api e (getModelsForPattern pattern) 0 k hk
    (fun j hj => by simpa using hok j hj) (by simpa using he)
  constructor
  · rw [synthesize, hrun]
  · rw [hrun]
    simp

/-- Response stub used by the C6 witness oracle. -/
def c6StubResponse : PerplexityResponse :=
  { id := [], model := [], created := 0, choices := [], citations := none,
    related_questions := none,
    usage := { prompt_tokens := 0, completion_tokens := 0, total_tokens := 0,
               citation_tokens := none, num_search_queries := none,
               reasoning_tokens := none } }

/-- C6 witness oracle: step 0 succeeds, every later step fails. -/
def c6Api : Nat → PerplexityModel → Except Unit PerplexityResponse :=
  fun i _ => if i = 0 then Except.ok c6StubResponse else Except.error ()

/-- Witness for C6: under the three-step `truthtracer` pattern with the second
step failing, `synthesize` fails with that error and only steps 0 and 1 run. -/
theorem c6_first_failure_propagates_witness :
    synthesize c6Api [] SynthesisPattern.truthtracer = Except.error () ∧
    (runModels c6Api (getModelsForPattern SynthesisPattern.truthtracer) 0).1 = [0, 1] := by
  have h := c6_first_failure_propagates c6Api [] SynthesisPattern.truthtracer 1 ()
    (by decide) (fun j hj => ⟨c6StubResponse, by interval_cases j; rfl⟩) rfl
  exact ⟨h.1, by rw [h.2]; decide⟩

/-! ## Claim C2 -/

/-- The confidence ladder exactly as the spec words it, as a function of a
common-citation count and a conflict-note count. -/
def specConfidenceLadder (commonCount conflictCount : Nat) : Confidence :=
  if commonCount > 3 ∧ conflictCount = 0 then Confidence.high
  else if commonCount > 1 then Confidence.mediumHigh
  else if conflictCount ≥ 2 then Confidence.low
  else Confidence.medium

/-- C2 (amended): with fewer than 2 results `analyzeConsistency` returns empty
agreements, empty conflicts and medium confidence; otherwise a URL is in the
common-citation list iff it is in every step's citation set, the confidence is
the spec's ladder applied to the length of that list — which counts a URL once
per occurrence in the FIRST step's citation list, not once per distinct URL —
and at most one conflict note is ever produced. -/
theorem c2_consistency_ladder (results : List ModelResult) :
    (results.length < 2 → analyzeConsistency results = ([], [], Confidence.medium)) ∧
    (2 ≤ results.length →
      (∀ u, u ∈ commonCitationsOf results ↔ ∀ r ∈ results, u ∈ r.citations) ∧
      (analyzeConsistency results).2.2 =
        specConfidenceLadder (commonCitationsOf results).length
          (analyzeConsistency results).2.1.length ∧
      (analyzeConsistency results).2.1.length ≤ 1) := by
  constructor
  · intro h
    rw [analyzeConsistency, if_pos h]
  · intro h
    have hnotlt : ¬ results.length < 2 := by omega
    obtain ⟨r0, rest, rfl⟩ : ∃ r0 rest, results = r0 :: rest := by
      cases results with
      | nil => simp at h
      | cons a l => exact ⟨a, l, rfl⟩
    refine ⟨?_, ?_, ?_⟩
    · intro u
      rw [commonCitationsOf]
      simp only [List.head?_cons, List.mem_filter, List.all_eq_true, decide_eq_true_eq]
      constructor
      · intro ⟨_, hall⟩ r hr
        exact hall r hr
      · intro hall
        exact ⟨hall r0 (List.mem_cons_self r0 rest), hall⟩
    · rw [analyzeConsistency, if_neg hnotlt, specConfidenceLadder]
      by_cases hvar : contentVarianceConflict (r0 :: rest)
      · simp only [hvar, if_true]
        split_ifs <;> simp_all
      · simp only [hvar, if_false]
        split_ifs <;> simp_all
    · rw [analyzeConsistency, if_neg hnotlt]
      by_cases hvar : contentVarianceConflict (r0 :: rest)
      · simp [hvar]
      · simp [hvar]

/-- A stub response carrying no content (analyzeConsistency only reads the
`content` and `citations` fields of a `ModelResult`). -/
def stubResponse : PerplexityResponse :=
  { id := [], model := [], created := 0, choices := [], citations := none,
    related_questions := none,
    usage := { prompt_tokens := 0, completion_tokens := 0, total_tokens := 0,
               citation_tokens := none, num_search_queries := none,
               reasoning_tokens := none } }

/-- First step of the C2 counterexample: its citation list contains the same
URL twice. -/
def dupStepOne : ModelResult :=
  { model := .sonarPro, response := stubResponse,
    content := ("aaaaaaaaaa").data,
    citations := [("https://x.org").data, ("https://x.org").data] }

/-- Second step of the C2 counterexample: the same single URL once. -/
def dupStepTwo : ModelResult :=
  { model := .sonarReasoningPro, response := stubResponse,
    content := ("bbbbbbbbbb").data,
    citations := [("https://x.org").data] }

/-- Counterexample to C2 as stated: with two steps whose first citation list
holds one distinct common URL twice, there is exactly 1 distinct common
citation and no conflict note, so the claim's ladder gives medium; but the code
counts the duplicate occurrences and returns medium-high. -/
theorem c2_counterexample_duplicate_citations :
    (analyzeConsistency [dupStepOne, dupStepTwo]).2.2 = Confidence.mediumHigh ∧
    (deduplicateCitations (commonCitationsOf [dupStepOne, dupStepTwo])).length = 1 ∧
    (analyzeConsistency [dupStepOne, dupStepTwo]).2.1 = [] ∧
    specConfidenceLadder 1 0 = Confidence.medium ∧
    Confidence.mediumHigh ≠ Confidence.medium := by
  refine ⟨?_, by decide, ?_, by decide, by decide⟩
  · rfl
  · rfl

/-- Witness for C2 (amended): the characterization applied to the two-step
counterexample input and to a single-result list. -/
theorem c2_consistency_ladder_witness :
    (analyzeConsistency [dupStepOne, dupStepTwo]).2.2 =
      specConfidenceLadder (commonCitationsOf [dupStepOne, dupStepTwo]).length
        (analyzeConsistency [dupStepOne, dupStepTwo]).2.1.length ∧
    analyzeConsistency [dupStepOne] = ([], [], Confidence.medium) :=
  ⟨((c2_consistency_ladder [dupStepOne, dupStepTwo]).2 (by decide)).2.1,
   (c2_consistency_ladder [dupStepOne]).1 (by decide)⟩

/-! ## Research Store model (research-store.ts): filename derivation -/

/-- Character class `[a-z0-9]` of the sanitizing regexes. -/
def isSlugChar (c : Char) : Bool :=
  (decide ('a' ≤ c) && decide (c ≤ 'z')) || (decide ('0' ≤ c) && decide (c ≤ '9'))

/-- Model of `.replace(/[^a-z0-9]+/g, '-')`: every maximal run of
non-alphanumeric characters becomes a single hyphen (a non-alphanumeric
character emits a hyphen that merges with the hyphen already produced for the
rest of its run). -/
def collapseNonAlnum : List Char → List Char
  | [] => []
  | c :: rest =>
    if isSlugChar c then c :: collapseNonAlnum rest
    else
      let collapsed := collapseNonAlnum rest
      if collapsed.head? = some '-' then collapsed else '-' :: collapsed

/-- Model of the `^-` half of `.replace(/^-|-$/g, '')`. -/
def dropLeadingHyphen (s : List Char) : List Char :=
  match s with
  | c :: rest => if c = '-' then rest else s
  | [] => []

/-- Model of the `-$` half of `.replace(/^-|-$/g, '')`. -/
def dropTrailingHyphen (s : List Char) : List Char :=
  if s.getLast? = some '-' then s.dropLast else s

/-- Model of `.replace(/^-|-$/g, '')` (one leading and one trailing hyphen). -/
def trimHyphens (s : List Char) : List Char := dropTrailingHyphen (dropLeadingHyphen s)

/-- The shared slug pipeline of `generateFilename` (limit 50) and
`saveRawResponse` (limit 30): lower-case, collapse non-alphanumeric runs,
trim a leading/trailing hyphen, truncate. -/
def sanitizeSlug (k : Nat) (topic : List Char) : List Char :=
  (trimHyphens (collapseNonAlnum (toLowerStr topic))).take k

/-- `generateFilename` (research-store.ts lines 174-182), with the current
ISO date supplied as a parameter. -/
def generateFilename (topic date : List Char) : List Char :=
  sanitizeSlug 50 topic ++ ('-' :: (date ++ (".md").data))

/-- Two adjacent characters are not both hyphens. -/
def notBothHyphens (a b : Char) : Prop := ¬(a = '-' ∧ b = '-')

theorem collapseNonAlnum_mem (s : List Char) :
    ∀ c ∈ collapseNonAlnum s, isSlugChar c = true ∨ c = '-' := by
  induction s with
  | nil => simp [collapseNonAlnum]
  | cons c rest ih =>
    intro d hd
    rw [collapseNonAlnum] at hd
    by_cases hc : isSlugChar c
    · rw [if_pos hc] at hd
      rcases List.mem_cons.mp hd with rfl | hmem
      · exact Or.inl hc
      · exact ih d hmem
    · rw [if_neg hc] at hd
      simp only at hd
      by_cases hh : (collapseNonAlnum rest).head? = some '-'
      · rw [if_pos hh] at hd
        exact ih d hd
      · rw [if_neg hh] at hd
        rcases List.mem_cons.mp hd with rfl | hmem
        · exact Or.inr rfl
        · exact ih d hmem

theorem collapseNonAlnum_chain (s : List Char) :
    List.Chain' notBothHyphens (collapseNonAlnum s) := by
  induction s with
  | nil => simp [collapseNonAlnum]
  | cons c rest ih =>
    rw [collapseNonAlnum]
    by_cases hc : isSlugChar c
    · rw [if_pos hc]
      refine List.chain'_cons'.mpr ⟨?_, ih⟩
      intro b _
      intro ⟨hch, _⟩
      rw [hch] at hc
      exact absurd hc (by decide)
    · rw [if_neg hc]
      simp only
      by_cases hh : (collapseNonAlnum rest).head? = some '-'
      · rw [if_pos hh]
        exact ih
      · rw [if_neg hh]
        refine List.chain'_cons'.mpr ⟨?_, ih⟩
        intro b hb
        intro ⟨_, hbh⟩
        rw [hbh] at hb
        exact hh hb

theorem dropLeadingHyphen_head (s : List Char)
    (hch : List.Chain' notBothHyphens s) :
    (dropLeadingHyphen s).head? ≠ some '-' := by
  match s with
  | [] => simp [dropLeadingHyphen]
  | c :: rest =>
    rw [dropLeadingHyphen]
    by_cases hc : c = '-'
    · rw [if_pos hc]
      match rest with
      | [] => simp
      | b :: tail =>
        have hr := List.chain'_cons.mp hch
        intro hb
        simp only [List.head?_cons, Option.some.injEq] at hb
        exact hr.1 ⟨hc, hb⟩
    · rw [if_neg hc]
      intro hb
      exact hc (Option.some.inj hb)

theorem dropTrailingHyphen_getLast (s : List Char)
    (hch : List.Chain' notBothHyphens s) :
    (dropTrailingHyphen s).getLast? ≠ some '-' := by
  rw [dropTrailingHyphen]
  by_cases hl : s.getLast? = some '-'
  · rw [if_pos hl]
    induction s with
    | nil => simp at hl
    | cons c rest ihs =>
      match rest with
      | [] =>
        simp
      | b :: tail =>
        have hstep : List.Chain' notBothHyphens (b :: tail) :=
          (List.chain'_cons.mp hch).2
        have hlast : (b :: tail).getLast? = some '-' := by
          rw [List.getLast?_cons_cons] at hl
          exact hl
        rw [show (c :: b :: tail).dropLast = c :: (b :: tail).dropLast from rfl]
        match htail : (b :: tail).dropLast with
        | [] =>
          have : tail = [] := by
            cases tail with
            | nil => rfl
            | cons x xs => simp [List.dropLast] at htail
          subst this
          simp only [List.getLast?_singleton] at hlast ⊢
          intro hc
          have hb : b = '-' := by
            simp at hlast
            exact hlast
          have hcc : c = '-' := by
            simpa using hc
          exact (List.chain'_cons.mp hch).1 ⟨hcc, hb⟩
        | e :: es =>
          have ihr := ihs hstep hlast
          rw [htail] at ihr
          rw [List.getLast?_cons_cons]
          exact ihr
  · rw [if_neg hl]
    exact hl

theorem dropLeadingHyphen_chain (s : List Char)
    (hch : List.Chain' notBothHyphens s) :
    List.Chain' notBothHyphens (dropLeadingHyphen s) := by
  match s with
  | [] => simp [dropLeadingHyphen]
  | c :: rest =>
    rw [dropLeadingHyphen]
    by_cases hc : c = '-'
    · rw [if_pos hc]
      exact (List.chain'_cons'.mp hch).2
    · rw [if_neg hc]
      exact hch

theorem dropTrailingHyphen_chain (s : List Char)
    (hch : List.Chain' notBothHyphens s) :
    List.Chain' notBothHyphens (dropTrailingHyphen s) := by
  rw [dropTrailingHyphen]
  by_cases hl : s.getLast? = some '-'
  · rw [if_pos hl, List.dropLast_eq_take]
    exact hch.take _
  · rw [if_neg hl]
    exact hch

theorem dropTrailingHyphen_head (s : List Char) :
    (dropTrailingHyphen s).head? = none ∨ (dropTrailingHyphen s).head? = s.head? := by
  rw [dropTrailingHyphen]
  by_cases hl : s.getLast? = some '-'
  · rw [if_pos hl]
    match s with
    | [] => exact Or.inl rfl
    | [a] => exact Or.inl rfl
    | a :: b :: t => exact Or.inr rfl
  · rw [if_neg hl]
    exact Or.inr rfl

theorem dropLeadingHyphen_subset (s : List Char) :
    ∀ c ∈ dropLeadingHyphen s, c ∈ s := by
  match s with
  | [] => simp [dropLeadingHyphen]
  | c :: rest =>
    rw [dropLeadingHyphen]
    by_cases hc : c = '-'
    · rw [if_pos hc]
      intro d hd
      exact List.mem_cons_of_mem c hd
    · rw [if_neg hc]
      intro d hd
      exact hd

theorem dropTrailingHyphen_subset (s : List Char) :
    ∀ c ∈ dropTrailingHyphen s, c ∈ s := by
  rw [dropTrailingHyphen]
  by_cases hl : s.getLast? = some '-'
  · rw [if_pos hl]
    intro d hd
    exact List.dropLast_subset s hd
  · rw [if_neg hl]
    intro d hd
    exact hd

/-! ## Claim C3 -/

/-- C3 (amended): `generateFilename` appends `-<ISO date>.md` to the derived
slug; in the slug every character is alphanumeric or a hyphen, no two hyphens
are adjacent (every non-alphanumeric run collapsed to one hyphen), the slug
never begins with a hyphen and is at most 50 characters; the slug *before*
truncation also never ends with a hyphen — but the 50-character truncation can
cut directly after a hyphen, so the final slug may end with one. Determinism is
inherent: the embedding is a pure function of (query, date). -/
theorem c3_filename_shape (topic date : List Char) :
    generateFilename topic date =
      sanitizeSlug 50 topic ++ ('-' :: (date ++ (".md").data)) ∧
    (∀ c ∈ sanitizeSlug 50 topic, isSlugChar c = true ∨ c = '-') ∧
    List.Chain' notBothHyphens (sanitizeSlug 50 topic) ∧
    (sanitizeSlug 50 topic).head? ≠ some '-' ∧
    (sanitizeSlug 50 topic).length ≤ 50 ∧
    (trimHyphens (collapseNonAlnum (toLowerStr topic))).getLast? ≠ some '-' := by
  have hch0 := collapseNonAlnum_chain (toLowerStr topic)
  have hchL := dropLeadingHyphen_chain _ hch0
  have hchT := dropTrailingHyphen_chain _ hchL
  refine ⟨rfl, ?_, ?_, ?_, ?_, ?_⟩
  · intro c hc
    have h1 : c ∈ trimHyphens (collapseNonAlnum (toLowerStr topic)) :=
      List.mem_of_mem_take hc
    have h2 : c ∈ dropLeadingHyphen (collapseNonAlnum (toLowerStr topic)) :=
      dropTrailingHyphen_subset _ c h1
    have h3 : c ∈ collapseNonAlnum (toLowerStr topic) :=
      dropLeadingHyphen_subset _ c h2
    exact collapseNonAlnum_mem _ c h3
  · exact hchT.take _
  · have hhead : (sanitizeSlug 50 topic).head? =
        (trimHyphens (collapseNonAlnum (toLowerStr topic))).head? := by
      rw [sanitizeSlug]
      cases trimHyphens (collapseNonAlnum (toLowerStr topic)) <;> simp
    rw [hhead]
    rcases dropTrailingHyphen_head (dropLeadingHyphen (collapseNonAlnum (toLowerStr topic)))
      with hnone | hsame
    · rw [trimHyphens, hnone]
      simp
    · rw [trimHyphens, hsame]
      exact dropLeadingHyphen_head _ hch0
  · rw [sanitizeSlug]
    exact List.length_take_le _ _
  · exact dropTrailingHyphen_getLast _ hchL

/-- The C3 counterexample topic: 49 alphanumeric characters, then a
non-alphanumeric character, then one more alphanumeric character. -/
def c3Topic : List Char := List.replicate 49 'a' ++ ['!', 'b']

/-- Counterexample to C3 as stated: for `c3Topic` the trimmed slug is
`a…a-b` (51 characters, no leading/trailing hyphen), and the 50-character
truncation cuts right after the hyphen, so the slug in the produced filename
ends with a hyphen, contradicting the claim that the slug never ends with one. -/
theorem c3_counterexample_trailing_hyphen :
    (sanitizeSlug 50 c3Topic).getLast? = some '-' ∧
    (sanitizeSlug 50 c3Topic).length = 50 ∧
    generateFilename c3Topic ("2024-12-01").data =
      sanitizeSlug 50 c3Topic ++ ("-2024-12-01.md").data := by
  refine ⟨by decide, by decide, rfl⟩

/-- Witness for C3 (amended) at a concrete topic and date, including the
negative conjuncts evaluated concretely. -/
theorem c3_filename_shape_witness :
    generateFilename ("What is Rust?").data ("2024-12-01").data =
      sanitizeSlug 50 ("What is Rust?").data ++ ('-' :: (("2024-12-01").data ++ (".md").data)) ∧
    (sanitizeSlug 50 ("What is Rust?").data).head? ≠ some '-' ∧
    (sanitizeSlug 50 ("What is Rust?").data).length ≤ 50 :=
  ⟨(c3_filename_shape ("What is Rust?").data ("2024-12-01").data).1,
   (c3_filename_shape ("What is Rust?").data ("2024-12-01").data).2.2.2.1,
   (c3_filename_shape ("What is Rust?").data ("2024-12-01").data).2.2.2.2.1⟩

/-! ## Research Store model: searchResearch -/

/-- A thread file as stored on disk: filename and content. -/
structure StoredFile where
  name : List Char
  content : List Char
deriving DecidableEq, Repr

/-- One entry of `searchResearch`'s result array. -/
structure SearchHit where
  file : List Char
  topic : List Char
  matchLines : List (List Char)
deriving DecidableEq, Repr

/-- The `/^# (.+) Research$/m` matcher of the topic cascade (first matching
line; greedy capture strips only the final ` Research`). -/
def v2TopicOf (content : List Char) : Option (List Char) :=
  (splitLines content).findSome? (fun l =>
    if ("# ").data.isPrefixOf l && (" Research").data.isSuffixOf (l.drop 2) && decide (11 < l.length)
    then some ((l.drop 2).take ((l.drop 2).length - 9))
    else none)

/-- The `/^# Research Thread: (.+)$/m` matcher of the topic cascade. -/
def v1TopicOf (content : List Char) : Option (List Char) :=
  (splitLines content).findSome? (fun l =>
    if ("# Research Thread: ").data.isPrefixOf l && decide (19 < l.length)
    then some (l.drop 19)
    else none)

/-- The `/^# (.+?)(?:\n|$)/m` matcher of the topic cascade (`.` does not match
a newline, so the lazy capture is forced to the rest of the line). -/
def v3TopicOf (content : List Char) : Option (List Char) :=
  (splitLines content).findSome? (fun l =>
    if ("# ").data.isPrefixOf l && decide (2 < l.length)
    then some (l.drop 2)
    else none)

/-- The topic-extraction cascade of `searchResearch` (research-store.ts lines
444-455): v2 form first, then v1, then v3, else the filename. -/
def extractTopicFrom (filename content : List Char) : List Char :=
  match v2TopicOf content with
  | some t => t
  | none =>
    match v1TopicOf content with
    | some t => t
    | none =>
      match v3TopicOf content with
      | some t => t
      | none => filename

/-- `lines.slice(Math.max(0, i-1), Math.min(lines.length, i+2))`. -/
def windowSlice (lines : List (List Char)) (i : Nat) : List (List Char) :=
  (lines.drop (i - 1)).take (min lines.length (i + 2) - (i - 1))

/-- The context snippet around line `i`: the window joined with newlines and
trimmed. -/
def lineWindow (lines : List (List Char)) (i : Nat) : List Char :=
  trimStr (joinSep ['\n'] (windowSlice lines i))

/-- One iteration of the matching-lines loop of `searchResearch`: if line `i`
contains some term (case-insensitively), append its nonempty, not-yet-seen
context snippet. -/
def collectStep (terms : List (List Char)) (lines : List (List Char))
    (acc : List (List Char)) (i : Nat) : List (List Char) :=
  if terms.any (fun t => isSubstr t (toLowerStr (lines.getD i []))) then
    let context := lineWindow lines i
    if context ≠ [] ∧ context ∉ acc then acc ++ [context] else acc
  else acc

/-- The matching-lines loop of `searchResearch` (research-store.ts lines
458-472): collect, in file order, the deduplicated nonempty context snippets of
lines containing some search term (case-insensitively). -/
def collectMatches (terms : List (List Char)) (lines : List (List Char)) : List (List Char) :=
  (List.range lines.length).foldl (collectStep terms lines) []

/-- Per-file body of the `searchResearch` loop: `none` when the file is
skipped (not all terms present, or no matching-line snippet survived). -/
def fileSearchHit (terms : List (List Char)) (f : StoredFile) : Option SearchHit :=
  let contentLower := toLowerStr f.content
  if terms.all (fun t => isSubstr t contentLower) then
    let matchingLines := collectMatches terms (splitLines f.content)
    if matchingLines ≠ [] then
      some { file := f.name, topic := extractTopicFrom f.name f.content,
             matchLines := matchingLines.take 5 }
    else none
  else none

/-- `searchResearch` (research-store.ts lines 422-484) over a modelled
directory listing: split the keywords on whitespace, keep files in directory
order whose content contains every term case-insensitively and which produce
at least one snippet. -/
def searchResearch (files : List StoredFile) (keywords : List Char) : List SearchHit :=
  let searchTerms := splitWS (toLowerStr keywords)
  files.filterMap (fileSearchHit searchTerms)

/-- Counterexample to C9 as stated: with whitespace-only keywords `" "` the
terms are two empty strings, and every term occurs in the whitespace-only
file content `" "` — yet `searchResearch` returns no result for the file,
because every context window trims to the empty string and is discarded. -/
theorem c9_counterexample_whitespace :
    searchResearch [⟨("t.md").data, (" ").data⟩] (" ").data = [] ∧
    (splitWS (toLowerStr (" ").data)).all
      (fun t => isSubstr t (toLowerStr (" ").data)) = true := by
  exact ⟨by decide, by decide⟩

/-- Counterexample to C10 as stated: the directory holds one non-empty (but
whitespace-only) thread file, keywords are empty, every term (the empty
string) occurs in the content — yet the file is not returned and the result
list is empty, so the "no results" case is reached. -/
theorem c10_counterexample_whitespace_file :
    searchResearch [⟨("t.md").data, (" ").data⟩] [] = [] ∧
    ((" ").data : List Char) ≠ [] ∧
    (splitWS (toLowerStr ([] : List Char))).all
      (fun t => isSubstr t (toLowerStr (" ").data)) = true := by
  exact ⟨by decide, by decide, by decide⟩

/-! ### Lemmas about the string helpers -/

theorem splitLines_ne_nil (s : List Char) : splitLines s ≠ [] := by
  match s with
  | [] => simp [splitLines]
  | c :: rest =>
    rw [splitLines]
    by_cases hc : c = '\n'
    · rw [if_pos hc]; simp
    · rw [if_neg hc]
      cases splitLines rest <;> simp

theorem mem_splitLines_sub (s : List Char) :
    ∀ l ∈ splitLines s, ∀ c ∈ l, c ∈ s := by
  induction s with
  | nil =>
    intro l hl c hc
    simp [splitLines] at hl
    subst hl
    simp at hc
  | cons x rest ih =>
    intro l hl c hc
    rw [splitLines] at hl
    by_cases hx : x = '\n'
    · rw [if_pos hx] at hl
      rcases List.mem_cons.mp hl with rfl | hm
      · simp at hc
      · exact List.mem_cons_of_mem _ (ih l hm c hc)
    · rw [if_neg hx] at hl
      rcases hrec : splitLines rest with _ | ⟨l0, ls⟩
      · exact absurd hrec (splitLines_ne_nil rest)
      · rw [hrec] at hl
        rcases List.mem_cons.mp hl with rfl | hm
        · rcases List.mem_cons.mp hc with rfl | hc0
          · exact List.mem_cons_self _ _
          · exact List.mem_cons_of_mem _
              (ih l0 (hrec ▸ List.mem_cons_self _ _) c hc0)
        · exact List.mem_cons_of_mem _
            (ih l (hrec ▸ List.mem_cons_of_mem _ hm) c hc)

theorem mem_splitLines_cover (s : List Char) :
    ∀ c ∈ s, c ≠ '\n' → ∃ l ∈ splitLines s, c ∈ l := by
  induction s with
  | nil => simp
  | cons x rest ih =>
    intro c hc hcn
    rw [splitLines]
    by_cases hx : x = '\n'
    · rw [if_pos hx]
      rcases List.mem_cons.mp hc with rfl | hm
      · exact absurd hx hcn
      · obtain ⟨l, hl, hcl⟩ := ih c hm hcn
        exact ⟨l, List.mem_cons_of_mem _ hl, hcl⟩
    · rw [if_neg hx]
      rcases hrec : splitLines rest with _ | ⟨l0, ls⟩
      · exact absurd hrec (splitLines_ne_nil rest)
      · rcases List.mem_cons.mp hc with rfl | hm
        · exact ⟨c :: l0, List.mem_cons_self _ _, List.mem_cons_self _ _⟩
        · obtain ⟨l, hl, hcl⟩ := ih c hm hcn
          rw [hrec] at hl
          rcases List.mem_cons.mp hl with rfl | hls
          · exact ⟨x :: l, List.mem_cons_self _ _, List.mem_cons_of_mem _ hcl⟩
          · exact ⟨l, List.mem_cons_of_mem _ hls, hcl⟩

theorem isSubstr_eq_true_iff (pat s : List Char) : isSubstr pat s = true ↔ pat <:+: s := by
  induction s with
  | nil =>
    rw [isSubstr]
    constructor
    · intro h
      have : pat = [] := List.isEmpty_iff.mp h
      subst this
      exact List.infix_refl []
    · intro h
      have : pat = [] := List.eq_nil_of_infix_nil h
      subst this
      rfl
  | cons c rest ih =>
    rw [isSubstr, Bool.or_eq_true, List.infix_cons_iff]
    constructor
    · rintro (hp | hs)
      · exact Or.inl ( List.isPrefixOf_iff_prefix.mp hp)
      · exact Or.inr (ih.mp hs)
    · rintro (hp | hs)
      · exact Or.inl ( List.isPrefixOf_iff_prefix.mpr hp)
      · exact Or.inr (ih.mpr hs)

theorem isSubstr_subset (pat s : List Char) (h : isSubstr pat s = true) :
    ∀ c ∈ pat, c ∈ s := by
  intro c hc
  exact ((isSubstr_eq_true_iff pat s).mp h).subset hc

theorem isSubstr_nil_pat (s : List Char) : isSubstr [] s = true := by
  match s with
  | [] => rfl
  | c :: rest => rw [isSubstr]; simp [List.isPrefixOf]

theorem isSubstr_cons_of (pat : List Char) (c : Char) (s : List Char)
    (h : isSubstr pat s = true) : isSubstr pat (c :: s) = true := by
  rw [isSubstr, h, Bool.or_true]

theorem splitWS_ne_nil (s : List Char) : splitWS s ≠ [] := by
  match s with
  | [] => simp [splitWS]
  | c :: rest =>
    rw [splitWS]
    by_cases hc : isWS c
    · rw [if_pos hc]
      split <;> first
        | exact splitWS_ne_nil rest
        | simp
    · rw [if_neg hc]
      cases splitWS rest <;> simp

theorem splitWS_pieces_nonWS (s : List Char) :
    ∀ p ∈ splitWS s, ∀ c ∈ p, isWS c = false := by
  induction s with
  | nil =>
    intro p hp c hc
    simp [splitWS] at hp
    subst hp
    simp at hc
  | cons x rest ih =>
    intro p hp c hc
    rw [splitWS] at hp
    by_cases hx : isWS x
    · rw [if_pos hx] at hp
      split at hp
      · exact ih p hp c hc
      · rcases List.mem_cons.mp hp with rfl | hm
        · simp at hc
        · exact ih p hm c hc
    · rw [if_neg hx] at hp
      rcases hrec : splitWS rest with _ | ⟨l0, ls⟩
      · exact absurd hrec (splitWS_ne_nil rest)
      · rw [hrec] at hp
        rcases List.mem_cons.mp hp with rfl | hm
        · rcases List.mem_cons.mp hc with rfl | hc0
          · exact Bool.eq_false_iff.mpr hx
          · exact ih l0 (hrec ▸ List.mem_cons_self _ _) c hc0
        · exact ih p (hrec ▸ List.mem_cons_of_mem _ hm) c hc

theorem splitWS_allWS (s : List Char) (hws : ∀ c ∈ s, isWS c = true) :
    ∀ p ∈ splitWS s, p = [] := by
  induction s with
  | nil =>
    intro p hp
    simp [splitWS] at hp
    exact hp
  | cons x rest ih =>
    intro p hp
    rw [splitWS] at hp
    have hx : isWS x = true := hws x (List.mem_cons_self _ _)
    rw [if_pos hx] at hp
    have ihr := ih (fun c hc => hws c (List.mem_cons_of_mem _ hc))
    split at hp
    · exact ihr p hp
    · rcases List.mem_cons.mp hp with rfl | hm
      · rfl
      · exact ihr p hm

theorem mem_dropWhile_of_mem (p : Char → Bool) (l : List Char) (c : Char)
    (hc : c ∈ l) (hp : p c = false) : c ∈ l.dropWhile p := by
  induction l with
  | nil => simp at hc
  | cons x xs ih =>
    rw [List.dropWhile]
    rcases List.mem_cons.mp hc with rfl | hm
    · rw [hp]
      exact List.mem_cons_self _ _
    · by_cases hx : p x
      · rw [hx]
        exact ih hm
      · rw [Bool.eq_false_iff.mpr hx]
        exact hc

theorem trimStr_ne_nil (s : List Char) (c : Char) (hc : c ∈ s)
    (hnws : isWS c = false) : trimStr s ≠ [] := by
  rw [trimStr, trimEnd]
  intro hcontra
  have h1 : c ∈ s.dropWhile isWS := mem_dropWhile_of_mem isWS s c hc hnws
  have h2 : c ∈ (s.dropWhile isWS).reverse := List.mem_reverse.mpr h1
  have h3 : c ∈ (s.dropWhile isWS).reverse.dropWhile isWS :=
    mem_dropWhile_of_mem isWS _ c h2 hnws
  have h4 : c ∈ ((s.dropWhile isWS).reverse.dropWhile isWS).reverse :=
    List.mem_reverse.mpr h3
  rw [hcontra] at h4
  simp at h4

theorem trimStr_allWS (s : List Char) (hws : ∀ c ∈ s, isWS c = true) :
    trimStr s = [] := by
  rw [trimStr]
  have h1 : s.dropWhile isWS = [] := List.dropWhile_eq_nil_iff.mpr hws
  rw [h1]
  rfl

theorem joinSep_cons₂ (sep s r : List Char) (rs : List (List Char)) :
    joinSep sep (s :: r :: rs) = s ++ sep ++ joinSep sep (r :: rs) := rfl

theorem mem_joinSep (sep : List Char) (pieces : List (List Char)) (p : List Char)
    (hp : p ∈ pieces) (c : Char) (hc : c ∈ p) : c ∈ joinSep sep pieces := by
  induction pieces with
  | nil => simp at hp
  | cons q rest ih =>
    rcases List.mem_cons.mp hp with rfl | hm
    · match rest with
      | [] => exact hc
      | r :: rs =>
        rw [joinSep_cons₂]
        exact List.mem_append.mpr (Or.inl (List.mem_append.mpr (Or.inl hc)))
    · match rest with
      | [] => simp at hm
      | r :: rs =>
        rw [joinSep_cons₂]
        exact List.mem_append.mpr (Or.inr (ih hm))

theorem joinSep_chars (sep : List Char) (pieces : List (List Char)) (c : Char)
    (hc : c ∈ joinSep sep pieces) : (∃ p ∈ pieces, c ∈ p) ∨ c ∈ sep := by
  induction pieces with
  | nil => simp [joinSep] at hc
  | cons q rest ih =>
    match rest with
    | [] =>
      exact Or.inl ⟨q, List.mem_cons_self _ _, hc⟩
    | r :: rs =>
      rw [joinSep_cons₂] at hc
      rcases List.mem_append.mp hc with h1 | h2
      · rcases List.mem_append.mp h1 with hq | hsep
        · exact Or.inl ⟨q, List.mem_cons_self _ _, hq⟩
        · exact Or.inr hsep
      · rcases ih h2 with ⟨p, hp, hcp⟩ | hsep
        · exact Or.inl ⟨p, List.mem_cons_of_mem _ hp, hcp⟩
        · exact Or.inr hsep

theorem charOfNat_toNat (n : Nat) (h : n.isValidChar) : (Char.ofNat n).toNat = n := by
  rw [Char.ofNat, dif_pos h]
  simp [Char.toNat]
  rfl

theorem toLower_eq_self_of_WS (c : Char) (h : isWS c = true) : Char.toLower c = c := by
  rw [isWS, Char.isWhitespace] at h
  simp only [Bool.or_eq_true, decide_eq_true_eq] at h
  rcases h with ((h | h) | h) | h <;> (subst h; decide)

theorem isWS_toLower (c : Char) : isWS (Char.toLower c) = isWS c := by
  by_cases h : isWS c
  · rw [toLower_eq_self_of_WS c h]
  · unfold Char.toLower
    dsimp only
    by_cases hc : c.toNat ≥ 65 ∧ c.toNat ≤ 90
    · rw [if_pos hc]
      have hval : (Char.ofNat (c.toNat + 32)).toNat = c.toNat + 32 :=
        charOfNat_toNat _ (Or.inl (by omega))
      have hggt : 96 < (Char.ofNat (c.toNat + 32)).toNat := by
        rw [hval]
        omega
      have hnot : isWS (Char.ofNat (c.toNat + 32)) = false := by
        rw [isWS, Char.isWhitespace]
        simp only [Bool.or_eq_false_iff, decide_eq_false_iff_not]
        refine ⟨⟨⟨?_, ?_⟩, ?_⟩, ?_⟩ <;>
          (intro hcontra
           rw [hcontra] at hggt
           revert hggt
           decide)
      rw [hnot]
      exact (Bool.eq_false_iff.mpr h).symm
    · rw [if_neg hc]

theorem toLower_eq_newline_iff (c : Char) : Char.toLower c = '\n' ↔ c = '\n' := by
  constructor
  · intro h
    by_contra hne
    unfold Char.toLower at h
    dsimp only at h
    by_cases hc : c.toNat ≥ 65 ∧ c.toNat ≤ 90
    · rw [if_pos hc] at h
      have h2 := congrArg Char.toNat h
      rw [charOfNat_toNat _ (Or.inl (by omega))] at h2
      have h3 : Char.toNat '\n' = 10 := by decide
      omega
    · rw [if_neg hc] at h
      exact hne h
  · intro h
    subst h
    decide

theorem splitLines_toLower (s : List Char) :
    splitLines (toLowerStr s) = (splitLines s).map toLowerStr := by
  induction s with
  | nil => simp [splitLines, toLowerStr]
  | cons c rest ih =>
    show splitLines (Char.toLower c :: toLowerStr rest) = _
    rw [splitLines, splitLines]
    by_cases hc : c = '\n'
    · rw [if_pos ((toLower_eq_newline_iff c).mpr hc), if_pos hc]
      rw [ih]
      simp [toLowerStr]
    · have hcl : ¬ Char.toLower c = '\n' := fun h => hc ((toLower_eq_newline_iff c).mp h)
      rw [if_neg hcl, if_neg hc]
      rcases hrec : splitLines rest with _ | ⟨l0, ls⟩
      · exact absurd hrec (splitLines_ne_nil rest)
      · rw [ih, hrec]
        simp [toLowerStr]

theorem isPrefixOf_headLine (pt : List Char) :
    ∀ (rest : List Char), pt.isPrefixOf rest = true → (∀ c ∈ pt, c ≠ '\n') →
      pt.isPrefixOf ((splitLines rest).headD []) = true := by
  induction pt with
  | nil => intro rest _ _; simp [List.isPrefixOf]
  | cons q qt ih =>
    intro rest hpre hnl
    match rest with
    | [] => simp [List.isPrefixOf] at hpre
    | r :: rs =>
      rw [List.isPrefixOf] at hpre
      simp only [Bool.and_eq_true, beq_iff_eq] at hpre
      obtain ⟨rfl, hpre'⟩ := hpre
      have hq : q ≠ '\n' := hnl q (List.mem_cons_self _ _)
      rw [splitLines, if_neg hq]
      rcases hrec : splitLines rs with _ | ⟨l0, ls⟩
      · exact absurd hrec (splitLines_ne_nil rs)
      · have ihr := ih rs hpre' (fun c hc => hnl c (List.mem_cons_of_mem _ hc))
        rw [hrec] at ihr
        simp only [List.headD_cons] at ihr ⊢
        rw [List.isPrefixOf]
        simp only [Bool.and_eq_true, beq_iff_eq]
        exact ⟨by trivial, ihr⟩

theorem isSubstr_line (pat : List Char) (hne : pat ≠ []) (hnl : ∀ c ∈ pat, c ≠ '\n') :
    ∀ (s : List Char), isSubstr pat s = true →
      ∃ l ∈ splitLines s, isSubstr pat l = true := by
  intro s
  induction s with
  | nil =>
    intro h
    rw [isSubstr] at h
    exact absurd (List.isEmpty_iff.mp h) hne
  | cons c rest ih =>
    intro h
    rw [isSubstr, Bool.or_eq_true] at h
    rcases h with hpre | hsub
    · match pat, hne with
      | p0 :: pt, _ =>
        rw [List.isPrefixOf] at hpre
        simp only [Bool.and_eq_true, beq_iff_eq] at hpre
        obtain ⟨rfl, hpre'⟩ := hpre
        have hc : p0 ≠ '\n' := hnl p0 (List.mem_cons_self _ _)
        rw [splitLines, if_neg hc]
        rcases hrec : splitLines rest with _ | ⟨l0, ls⟩
        · exact absurd hrec (splitLines_ne_nil rest)
        · have hhd := isPrefixOf_headLine pt rest hpre'
            (fun d hd => hnl d (List.mem_cons_of_mem _ hd))
          rw [hrec] at hhd
          simp only [List.headD_cons] at hhd
          refine ⟨p0 :: l0, List.mem_cons_self _ _, ?_⟩
          rw [isSubstr, Bool.or_eq_true]
          left
          rw [List.isPrefixOf]
          simp only [Bool.and_eq_true, beq_iff_eq]
          exact ⟨by trivial, hhd⟩
    · obtain ⟨l, hl, hsl⟩ := ih hsub
      rw [splitLines]
      by_cases hc : c = '\n'
      · rw [if_pos hc]
        exact ⟨l, List.mem_cons_of_mem _ hl, hsl⟩
      · rw [if_neg hc]
        rcases hrec : splitLines rest with _ | ⟨l0, ls⟩
        · exact absurd hrec (splitLines_ne_nil rest)
        · rw [hrec] at hl
          rcases List.mem_cons.mp hl with rfl | hm
          · exact ⟨c :: l, List.mem_cons_self _ _, isSubstr_cons_of _ c _ hsl⟩
          · exact ⟨l, List.mem_cons_of_mem _ hm, hsl⟩

theorem getD_mem_windowSlice (lines : List (List Char)) (i : Nat)
    (hi : i < lines.length) : lines.getD i [] ∈ windowSlice lines i := by
  have hget : lines[i]? = some (lines.getD i []) := by
    rw [List.getElem?_eq_getElem hi]
    rw [List.getD_eq_getElem?_getD, List.getElem?_eq_getElem hi]
    rfl
  have hj : (windowSlice lines i)[i - (i - 1)]? = some (lines.getD i []) := by
    rw [windowSlice]
    have hjk : i - (i - 1) < min lines.length (i + 2) - (i - 1) := by omega
    rw [List.getElem?_take_of_lt hjk, List.getElem?_drop]
    have : i - 1 + (i - (i - 1)) = i := by omega
    rw [this]
    exact hget
  have := List.getElem?_eq_some_iff.mp hj
  obtain ⟨hlt, hg⟩ := this
  exact hg ▸ List.getElem_mem hlt

theorem collectStep_ne_nil (terms : List (List Char)) (lines : List (List Char))
    (acc : List (List Char)) (i : Nat) (hacc : acc ≠ []) :
    collectStep terms lines acc i ≠ [] := by
  rw [collectStep]
  split
  · dsimp only
    split
    · simp
    · exact hacc
  · exact hacc

theorem collectStep_hit_ne_nil (terms : List (List Char)) (lines : List (List Char))
    (acc : List (List Char)) (i : Nat)
    (hcond : terms.any (fun t => isSubstr t (toLowerStr (lines.getD i []))) = true)
    (hwin : lineWindow lines i ≠ []) :
    collectStep terms lines acc i ≠ [] := by
  rw [collectStep, if_pos hcond]
  dsimp only
  split
  · simp
  · rename_i hsplit
    rw [not_and_or] at hsplit
    rcases hsplit with h1 | h2
    · exact absurd hwin (by simpa using h1)
    · intro hc
      subst hc
      rw [not_not] at h2
      simp at h2

theorem collect_foldl_ne_nil (terms : List (List Char)) (lines : List (List Char)) :
    ∀ (idxs : List Nat) (acc : List (List Char)),
      ((∃ i ∈ idxs,
          terms.any (fun t => isSubstr t (toLowerStr (lines.getD i []))) = true ∧
          lineWindow lines i ≠ []) ∨ acc ≠ []) →
      idxs.foldl (collectStep terms lines) acc ≠ [] := by
  intro idxs
  induction idxs with
  | nil =>
    intro acc h
    rcases h with ⟨i, hi, _⟩ | hacc
    · simp at hi
    · exact hacc
  | cons j rest ih =>
    intro acc h
    rw [List.foldl_cons]
    rcases h with ⟨i, hi, hcond, hwin⟩ | hacc
    · rcases List.mem_cons.mp hi with rfl | hm
      · exact ih _ (Or.inr (collectStep_hit_ne_nil terms lines acc i hcond hwin))
      · exact ih _ (Or.inl ⟨i, hm, hcond, hwin⟩)
    · exact ih _ (Or.inr (collectStep_ne_nil terms lines acc j hacc))

theorem collect_foldl_noop (terms : List (List Char)) (lines : List (List Char))
    (hwin : ∀ i, lineWindow lines i = []) :
    ∀ (idxs : List Nat) (acc : List (List Char)),
      idxs.foldl (collectStep terms lines) acc = acc := by
  intro idxs
  induction idxs with
  | nil => intro acc; rfl
  | cons j rest ih =>
    intro acc
    rw [List.foldl_cons]
    have hstep : collectStep terms lines acc j = acc := by
      rw [collectStep]
      split
      · dsimp only
        rw [if_neg]
        rw [not_and_or]
        left
        simp [hwin j]
      · rfl
    rw [hstep]
    exact ih acc

theorem collect_foldl_nodup (terms : List (List Char)) (lines : List (List Char)) :
    ∀ (idxs : List Nat) (acc : List (List Char)), acc.Nodup →
      (idxs.foldl (collectStep terms lines) acc).Nodup := by
  intro idxs
  induction idxs with
  | nil => intro acc h; exact h
  | cons j rest ih =>
    intro acc h
    rw [List.foldl_cons]
    refine ih _ ?_
    rw [collectStep]
    split
    · dsimp only
      split
      · rename_i hcnd
        refine List.Nodup.append h (List.nodup_singleton _) ?_
        intro a ha hamem
        rw [List.mem_singleton] at hamem
        subst hamem
        exact hcnd.2 ha
      · exact h
    · exact h

theorem mem_getD_index (xs : List (List Char)) (a : List Char) (ha : a ∈ xs) :
    ∃ i, i < xs.length ∧ xs.getD i [] = a := by
  obtain ⟨⟨i, hi⟩, hget⟩ := List.get_of_mem ha
  refine ⟨i, hi, ?_⟩
  rw [List.getD_eq_getElem?_getD, List.getElem?_eq_getElem hi]
  simpa using hget

/-- The core nonemptiness argument shared by C9 and C10: if some line of the
file (at index `i`) matches a term and the window around it has a
non-whitespace character, `collectMatches` is nonempty. -/
theorem collectMatches_ne_nil (terms : List (List Char)) (lines : List (List Char))
    (i : Nat) (hi : i < lines.length)
    (hcond : terms.any (fun t => isSubstr t (toLowerStr (lines.getD i []))) = true)
    (hwin : lineWindow lines i ≠ []) :
    collectMatches terms lines ≠ [] := by
  rw [collectMatches]
  exact collect_foldl_ne_nil terms lines (List.range lines.length) []
    (Or.inl ⟨i, List.mem_range.mpr hi, hcond, hwin⟩)

/-! ## Claim C9 -/

/-- C9 (amended): provided at least one search term is nonempty (equivalently,
the keywords are not whitespace-only), `searchResearch` returns a file iff
every whitespace-separated term of the lower-cased keywords occurs as a
substring of the file's lower-cased content (terms may occur on different
lines); each returned file carries the first 5 deduplicated context snippets
collected over the file's lines in order. Without that proviso the stated
equivalence fails (see the counterexample): a file whose every matching-line
window trims to the empty string yields no snippet and is dropped. -/
theorem c9_search_all_terms (files : List StoredFile) (keywords : List Char)
    (hterm : ∃ t ∈ splitWS (toLowerStr keywords), t ≠ []) :
    searchResearch files keywords =
      files.filterMap (fileSearchHit (splitWS (toLowerStr keywords))) ∧
    (∀ f : StoredFile,
      (fileSearchHit (splitWS (toLowerStr keywords)) f).isSome =
        (splitWS (toLowerStr keywords)).all
          (fun t => isSubstr t (toLowerStr f.content))) ∧
    (∀ (f : StoredFile) (hit : SearchHit),
      fileSearchHit (splitWS (toLowerStr keywords)) f = some hit →
      hit.file = f.name ∧
      hit.matchLines =
        (collectMatches (splitWS (toLowerStr keywords)) (splitLines f.content)).take 5 ∧
      hit.matchLines.length ≤ 5 ∧
      hit.matchLines.Nodup) := by
  refine ⟨rfl, ?_, ?_⟩
  · intro f
    by_cases hall : (splitWS (toLowerStr keywords)).all
        (fun t => isSubstr t (toLowerStr f.content)) = true
    · rw [hall]
      obtain ⟨t, htmem, htne⟩ := hterm
      have hnws : ∀ c ∈ t, isWS c = false :=
        splitWS_pieces_nonWS (toLowerStr keywords) t htmem
      have hnl : ∀ c ∈ t, c ≠ '\n' := by
        intro c hc hcontra
        subst hcontra
        have := hnws _ hc
        simp [isWS] at this
      have hsubt : isSubstr t (toLowerStr f.content) = true :=
        List.all_eq_true.mp hall t htmem
      obtain ⟨lLow, hlLow, hslLow⟩ := isSubstr_line t htne hnl (toLowerStr f.content) hsubt
      rw [splitLines_toLower] at hlLow
      obtain ⟨l, hl, rfl⟩ := List.mem_map.mp hlLow
      obtain ⟨i, hi, hgetD⟩ := mem_getD_index (splitLines f.content) l hl
      have hcond : (splitWS (toLowerStr keywords)).any
          (fun u => isSubstr u (toLowerStr ((splitLines f.content).getD i []))) = true := by
        refine List.any_eq_true.mpr ⟨t, htmem, ?_⟩
        rw [hgetD]
        exact hslLow
      have hwin : lineWindow (splitLines f.content) i ≠ [] := by
        match t, htne with
        | c0 :: ts, _ =>
          have hc0 : c0 ∈ toLowerStr l :=
            isSubstr_subset _ _ hslLow c0 (List.mem_cons_self _ _)
          obtain ⟨d, hd, hdl⟩ := List.mem_map.mp hc0
          have hdnws : isWS d = false := by
            have h1 := isWS_toLower d
            rw [hdl] at h1
            rw [← h1]
            exact hnws c0 (List.mem_cons_self _ _)
          have hlwin : l ∈ windowSlice (splitLines f.content) i := by
            have := getD_mem_windowSlice (splitLines f.content) i hi
            rw [hgetD] at this
            exact this
          have hdj : d ∈ joinSep ['\n'] (windowSlice (splitLines f.content) i) :=
            mem_joinSep _ _ l hlwin d hd
          rw [lineWindow]
          exact trimStr_ne_nil _ d hdj hdnws
      have hmne := collectMatches_ne_nil _ _ i hi hcond hwin
      rw [fileSearchHit, if_pos hall]
      dsimp only
      rw [if_pos hmne]
      rfl
    · rw [fileSearchHit, if_neg (by simpa using hall)]
      simp only [Option.isSome_none]
      exact (Bool.eq_false_iff.mpr hall).symm
  · intro f hit hsome
    rw [fileSearchHit] at hsome
    split at hsome
    · dsimp only at hsome
      split at hsome
      · rename_i hne2
        have := Option.some.inj hsome
        subst this
        refine ⟨rfl, rfl, List.length_take_le _ _, ?_⟩
        exact (collect_foldl_nodup _ _ _ [] List.nodup_nil).sublist
          (List.take_sublist _ _)
      · exact absurd hsome (by simp)
    · exact absurd hsome (by simp)

/-- Witness for C9 (amended): keywords `"alpha beta"` and a file containing
`Alpha` and `beta` on different lines; both terms occur case-insensitively, so
the file matches. -/
theorem c9_search_all_terms_witness :
    (∃ t ∈ splitWS (toLowerStr ("alpha beta").data), t ≠ []) ∧
    (fileSearchHit (splitWS (toLowerStr ("alpha beta").data))
        ⟨("a.md").data, ("Alpha\nis beta").data⟩).isSome =
      (splitWS (toLowerStr ("alpha beta").data)).all
        (fun t => isSubstr t (toLowerStr ("Alpha\nis beta").data)) :=
  ⟨⟨("alpha").data, by decide, by decide⟩,
   (c9_search_all_terms [⟨("a.md").data, ("Alpha\nis beta").data⟩] ("alpha beta").data
      ⟨("alpha").data, by decide, by decide⟩).2.1
      ⟨("a.md").data, ("Alpha\nis beta").data⟩⟩

/-! ## Claim C10 -/

theorem windowSlice_mem_lines (lines : List (List Char)) (i : Nat) :
    ∀ p ∈ windowSlice lines i, p ∈ lines := by
  intro p hp
  rw [windowSlice] at hp
  exact List.mem_of_mem_drop (List.mem_of_mem_take hp)

/-- C10 (amended): with empty or whitespace-only keywords every term is the
empty string and occurs in every content, so the all-terms test passes for
every file; a thread file is returned iff its content has at least one
non-whitespace character. Empty or whitespace-only files are still dropped
(their snippets all trim to the empty string), so the claim's "every thread
file is returned and the no-results case is never reached" fails exactly on
directories whose files are all whitespace-only (see the counterexample). -/
theorem c10_whitespace_keywords (files : List StoredFile) (keywords : List Char)
    (hws : ∀ c ∈ keywords, isWS c = true) :
    searchResearch files keywords =
      files.filterMap (fileSearchHit (splitWS (toLowerStr keywords))) ∧
    (∀ f : StoredFile,
      (splitWS (toLowerStr keywords)).all
        (fun t => isSubstr t (toLowerStr f.content)) = true) ∧
    (∀ f : StoredFile,
      ((fileSearchHit (splitWS (toLowerStr keywords)) f).isSome = true ↔
        ∃ c ∈ f.content, isWS c = false)) := by
  have hlowWS : ∀ c ∈ toLowerStr keywords, isWS c = true := by
    intro c hc
    obtain ⟨c0, hc0, rfl⟩ := List.mem_map.mp hc
    rw [isWS_toLower]
    exact hws c0 hc0
  have hempty : ∀ p ∈ splitWS (toLowerStr keywords), p = [] :=
    splitWS_allWS _ hlowWS
  have hallpass : ∀ f : StoredFile,
      (splitWS (toLowerStr keywords)).all
        (fun t => isSubstr t (toLowerStr f.content)) = true := by
    intro f
    refine List.all_eq_true.mpr ?_
    intro t ht
    rw [hempty t ht]
    exact isSubstr_nil_pat _
  refine ⟨rfl, hallpass, ?_⟩
  intro f
  constructor
  · intro hsome
    by_contra hno
    push_neg at hno
    have hcontentWS : ∀ c ∈ f.content, isWS c = true := by
      intro c hc
      cases h : isWS c
      · exact absurd h (hno c hc)
      · rfl
    have hwinnil : ∀ i, lineWindow (splitLines f.content) i = [] := by
      intro i
      rw [lineWindow]
      refine trimStr_allWS _ ?_
      intro c hc
      rcases joinSep_chars _ _ c hc with ⟨p, hp, hcp⟩ | hsep
      · exact hcontentWS c
          (mem_splitLines_sub f.content p (windowSlice_mem_lines _ i p hp) c hcp)
      · rw [List.mem_singleton] at hsep
        subst hsep
        decide
    have hmnil : collectMatches (splitWS (toLowerStr keywords)) (splitLines f.content) = [] := by
      rw [collectMatches]
      exact collect_foldl_noop _ _ hwinnil _ []
    rw [fileSearchHit, if_pos (hallpass f)] at hsome
    dsimp only at hsome
    rw [if_neg (by simpa using hmnil)] at hsome
    simp at hsome
  · intro ⟨c, hc, hcnws⟩
    have hcn : c ≠ '\n' := by
      intro hcontra
      subst hcontra
      simp [isWS] at hcnws
    obtain ⟨l, hl, hcl⟩ := mem_splitLines_cover f.content c hc hcn
    obtain ⟨i, hi, hgetD⟩ := mem_getD_index (splitLines f.content) l hl
    obtain ⟨t0, ht0⟩ : ∃ t0, t0 ∈ splitWS (toLowerStr keywords) := by
      rcases hsw : splitWS (toLowerStr keywords) with _ | ⟨t0, ts⟩
      · exact absurd hsw (splitWS_ne_nil _)
      · exact ⟨t0, List.mem_cons_self _ _⟩
    have hcond : (splitWS (toLowerStr keywords)).any
        (fun u => isSubstr u (toLowerStr ((splitLines f.content).getD i []))) = true := by
      refine List.any_eq_true.mpr ⟨t0, ht0, ?_⟩
      rw [hempty t0 ht0]
      exact isSubstr_nil_pat _
    have hwin : lineWindow (splitLines f.content) i ≠ [] := by
      have hlwin : l ∈ windowSlice (splitLines f.content) i := by
        have := getD_mem_windowSlice (splitLines f.content) i hi
        rw [hgetD] at this
        exact this
      have hcj : c ∈ joinSep ['\n'] (windowSlice (splitLines f.content) i) :=
        mem_joinSep _ _ l hlwin c hcl
      rw [lineWindow]
      exact trimStr_ne_nil _ c hcj hcnws
    have hmne := collectMatches_ne_nil _ _ i hi hcond hwin
    rw [fileSearchHit, if_pos (hallpass f)]
    dsimp only
    rw [if_pos hmne]
    rfl

/-- Witness for C10 (amended): whitespace-only keywords `" "` against a file
whose content has a non-whitespace character: the file is returned. -/
theorem c10_whitespace_keywords_witness :
    (∀ c ∈ ((" ").data : List Char), isWS c = true) ∧
    (fileSearchHit (splitWS (toLowerStr (" ").data))
        ⟨("t.md").data, ("x").data⟩).isSome = true :=
  ⟨by decide,
   ((c10_whitespace_keywords [⟨("t.md").data, ("x").data⟩] (" ").data (by decide)).2.2
     ⟨("t.md").data, ("x").data⟩).mpr ⟨'x', by decide, by decide⟩⟩

/-! ## Research Store model: saveResearch (research-store.ts lines 196-322) -/

/-- `MODEL_PRICING` per-million-token prices (input, output). The fallback to
the `sonar` row is unreachable for the closed model enumeration. -/
def modelPricing : PerplexityModel → Nat × Nat
  | .sonar => (1, 1)
  | .sonarPro => (3, 15)
  | .sonarReasoningPro => (2, 8)
  | .sonarDeepResearch => (2, 8)

/-- Left-pad a decimal rendering with zeros to 4 digits. -/
def pad4 (n : Nat) : List Char :=
  List.replicate (4 - (natRepr n).length) '0' ++ natRepr n

/-- `calculateCost`: `$` + the total cost at 4 decimal places. The source
computes `promptTokens/1e6·in + completionTokens/1e6·out` in floats and calls
`toFixed(4)`; all prices are integers, so the exact value in micro-dollars is
`pt·in + ct·out`, and rounding to 4 decimals is (half-up) division by 100. -/
def calculateCost (model : PerplexityModel) (promptTokens completionTokens : Nat) :
    List Char :=
  let pricing := modelPricing model
  let totalMicro := promptTokens * pricing.1 + completionTokens * pricing.2
  let scaled := (totalMicro + 50) / 100
  ('$' :: natRepr (scaled / 10000)) ++ ('.' :: pad4 (scaled % 10000))

/-- `extractDomain`: the hostname of a well-formed `scheme://host[/:?#]...`
URL with a `www.` prefix stripped, else (when `new URL` would throw for lack
of a scheme separator) the raw URL. -/
def extractDomain (url : List Char) : List Char :=
  match firstIdx ("://").data url with
  | none => url
  | some i =>
    let host := (url.drop (i + 3)).takeWhile
      (fun c => !(c = '/' || c = ':' || c = '?' || c = '#'))
    if ("www.").data.isPrefixOf host then host.drop 4 else host

/-- `formatCitations` (research-store.ts lines 83-94). -/
def formatCitations (citations : List (List Char)) : List Char :=
  if citations.isEmpty then ("*No citations provided*").data
  else
    joinSep ("\n\n").data (citations.mapIdx (fun i url =>
      ('[' :: natRepr (i + 1)) ++ ("] ").data ++ extractDomain url ++
      ("\n    ").data ++ url))

/-- One invocation of `saveResearch`, with the clock-dependent strings
(`formatDualTimestamp()`, `generateTimestamp()`, `new Date().toISOString()`)
supplied by the environment as fields. -/
structure SaveInput where
  query : List Char
  response : PerplexityResponse
  model : PerplexityModel
  systemPrompt : Option (List Char)
  modelRationale : Option (List Char)
  approvedPlan : Option (List Char)
  timestamp : List Char
  rawStamp : List Char
  savedAt : List Char
  today : List Char
deriving Repr

/-- The raw-backup filename `<YYYYMMDD_HHMMSS>_<slug30>.json` of
`saveRawResponse`. -/
def rawFilenameOf (p : SaveInput) : List Char :=
  p.rawStamp ++ ('_' :: sanitizeSlug 30 p.query) ++ (".json").data

/-- The entry title: the query truncated to 60 characters. -/
def queryTitle (q : List Char) : List Char :=
  if 60 < q.length then q.take 60 ++ ("...").data else q

/-- The `## Query N: title` header line of an entry (without its newline). -/
def queryHeaderLine (n : Nat) (q : List Char) : List Char :=
  ("## Query ").data ++ natRepr n ++ (": ").data ++ queryTitle q

/-- The body of one research entry after its header line: the template of
`saveResearch` (research-store.ts lines 231-269), rendered for one input.
Truthiness of the optional strings and of `num_search_queries` follows JS
(empty string and 0 are falsy). -/
def entryBody (p : SaveInput) : List Char :=
  let rawContent :=
    match p.response.choices.head? with
    | some ch => ch.message.content
    | none => []
  ("**Timestamp**: ").data ++ p.timestamp ++
  ("\n**Raw**: [raw/").data ++ rawFilenameOf p ++ ("](raw/").data ++ rawFilenameOf p ++
  (")\n**Model**: ").data ++ modelName p.model ++
  (match p.modelRationale with
   | some r => if r ≠ [] then (" (").data ++ r ++ (")").data else []
   | none => []) ++
  (" | **Tokens**: ").data ++ groupNat p.response.usage.total_tokens ++
  (match p.response.usage.num_search_queries with
   | some k => if k ≠ 0 then (" | **Searches**: ").data ++ natRepr k else []
   | none => []) ++
  ("\n\n").data ++
  (match p.approvedPlan with
   | some plan => if plan ≠ [] then ("### Approved Plan\n").data ++ plan ++ ("\n\n").data else []
   | none => []) ++
  ("### Findings\n\n").data ++
  stripThinkingBlocks rawContent ++
  ("\n\n### Citations\n\n").data ++
  formatCitations (p.response.citations.getD []) ++ ("\n").data ++
  (if (p.response.related_questions.getD []).length > 0 then
    ("\n### Related Questions\n\n").data ++
    joinSep ("\n").data ((p.response.related_questions.getD []).mapIdx
      (fun i q => natRepr (i + 1) ++ (". ").data ++ q)) ++ ("\n").data
   else []) ++
  ("\n### Cost\n").data ++
  calculateCost p.model p.response.usage.prompt_tokens p.response.usage.completion_tokens ++
  ("\n\n---\n").data ++ '\n' :: []

/-- One full research entry: header line, newline, body. -/
def mkEntry (n : Nat) (p : SaveInput) : List Char :=
  queryHeaderLine n p.query ++ '\n' :: entryBody p

/-- `generateSynthesisSection` (research-store.ts lines 306-322). -/
def generateSynthesisSection (queryCount : Nat) (today : List Char) : List Char :=
  ("## Synthesis (Updated: ").data ++ today ++ (")").data ++ '\n' :: '\n' ::
  ('*' :: natRepr queryCount) ++
  (if queryCount = 1 then (" query").data else (" queries").data) ++
  (" in this thread*").data ++ '\n' :: '\n' ::
  ("### Key Conclusions").data ++ '\n' ::
  ("- *(Update after reviewing findings)*").data ++ '\n' :: '\n' ::
  ("### Open Questions").data ++ '\n' ::
  ("- *(What remains unresolved)*").data ++ '\n' :: '\n' ::
  ("### Confidence Assessment").data ++ '\n' ::
  ("- High confidence: *(topics)*").data ++ '\n' ::
  ("- Needs verification: *(topics)*").data ++ '\n' :: []

/-- The `'## Synthesis'` marker searched by `saveResearch`. -/
def synthMarker : List Char := ("## Synthesis").data

/-- The `^## Query \d+:` pattern of `countQueriesInThread`, applied to one
line: the literal prefix, one or more digits, a colon. -/
def isQH (l : List Char) : Bool :=
  ("## Query ").data.isPrefixOf l &&
  (let rest := l.drop 9
   let ds := rest.takeWhile Char.isDigit
   !ds.isEmpty && ((rest.drop ds.length).head? == some ':'))

/-- The lines of a string matching `/^## Query \d+:/` (multiline regex:
anchored at every line start). -/
def queryHeaderLines (s : List Char) : List (List Char) :=
  (splitLines s).filter isQH

/-- `countQueriesInThread` on a file's content (match count of the regex). -/
def countQueryLines (s : List Char) : Nat := (queryHeaderLines s).length

/-- `countQueriesInThread` (research-store.ts lines 164-169): 0 for a missing
file. -/
def countQueriesInThread : Option (List Char) → Nat
  | none => 0
  | some c => countQueryLines c

/-- The synthesis-stripping step of `saveResearch` (lines 276-281): truncate at
the first `## Synthesis`, trim trailing whitespace, re-append a blank line;
leave the content alone when no marker occurs. -/
def removeSynthesisSection (c : List Char) : List Char :=
  match firstIdx synthMarker c with
  | none => c
  | some i => trimEnd (c.take i) ++ ("\n\n").data

/-- The new-file header of `saveResearch` (lines 288-296) up to the first
entry: title (query truncated to 80), fixed blurb, optional context line. -/
def fileHeaderIntro (p : SaveInput) : List Char :=
  let title := if 80 < p.query.length then p.query.take 80 ++ ("...").data else p.query
  ("# ").data ++ title ++ '\n' :: '\n' ::
  ("Research thread for this topic.").data ++ '\n' ::
  ((match p.systemPrompt with
    | some s => if s ≠ [] then '\n' :: ("Context: ").data ++ s else []
    | none => []) ++
   '\n' :: '\n' :: ("---").data ++ '\n' :: '\n' :: [])

/-- The whole-file content written by one `saveResearch` call, as a function
of the file's previous content (research-store.ts lines 204-301). -/
def saveContent (existing : Option (List Char)) (p : SaveInput) : List Char :=
  let queryNum := countQueriesInThread existing + 1
  let entry := mkEntry queryNum p
  match existing with
  | some c => removeSynthesisSection c ++ entry ++ generateSynthesisSection queryNum p.today
  | none => fileHeaderIntro p ++ entry ++ generateSynthesisSection queryNum p.today

/-- The research directory as a map from filename to content. -/
def ResearchFS : Type := List Char → Option (List Char)

/-- One `saveResearch` call applied to the research directory: only the thread
file derived from this call's query and date is touched. -/
def saveStepFS (fs : ResearchFS) (p : SaveInput) : ResearchFS :=
  fun n =>
    if n = generateFilename p.query p.today
    then some (saveContent (fs (generateFilename p.query p.today)) p)
    else fs n

/-- All saves of a session applied in order to an empty research directory. -/
def runSaves (ps : List SaveInput) : ResearchFS :=
  ps.foldl saveStepFS (fun _ => none)

/-! ## Claim C8: write events of one saveResearch call -/

/-- The JSON object written by `saveRawResponse` (its four fields). -/
structure RawBackup where
  saved_at : List Char
  model : PerplexityModel
  topic : List Char
  response : PerplexityResponse
deriving Repr

/-- A filesystem write performed by `saveResearch`. -/
inductive FsWrite where
  | rawWrite (path : List Char) (data : RawBackup)
  | mdWrite (path : List Char) (content : List Char)
deriving Repr

/-- The ordered write events of one `saveResearch` call: `saveRawResponse`
writes the JSON backup first (line 213), the markdown thread file is written
last (line 285 / 297), in both the existing-file and new-file branches. -/
def saveResearchEvents (existing : Option (List Char)) (p : SaveInput) : List FsWrite :=
  [FsWrite.rawWrite (("raw/").data ++ rawFilenameOf p)
     ⟨p.savedAt, p.model, p.query, p.response⟩,
   FsWrite.mdWrite (generateFilename p.query p.today) (saveContent existing p)]

/-- C8: in every `saveResearch` run the raw JSON backup — carrying the save
timestamp, model, topic and the full response — is written to
`raw/<stamp>_<slug30>.json` strictly before the markdown thread file is
written, and it is never skipped: any markdown write in the event list has a
raw write at an earlier position. -/
theorem c8_raw_backup_first (existing : Option (List Char)) (p : SaveInput) :
    saveResearchEvents existing p =
      [FsWrite.rawWrite
         (("raw/").data ++ (p.rawStamp ++ ('_' :: sanitizeSlug 30 p.query) ++ (".json").data))
         ⟨p.savedAt, p.model, p.query, p.response⟩,
       FsWrite.mdWrite (generateFilename p.query p.today) (saveContent existing p)] ∧
    (∀ (i : Nat) (f c : List Char),
      (saveResearchEvents existing p)[i]? = some (FsWrite.mdWrite f c) →
      ∃ j, j < i ∧ ∃ rp d, (saveResearchEvents existing p)[j]? = some (FsWrite.rawWrite rp d)) := by
  refine ⟨rfl, ?_⟩
  intro i f c hi
  match i with
  | 0 => exact absurd hi (by simp [saveResearchEvents])
  | 1 =>
    refine ⟨0, Nat.zero_lt_one, ?_⟩
    exact ⟨_, _, rfl⟩
  | n + 2 => exact absurd hi (by simp [saveResearchEvents])

/-- A concrete save input used by the C8 and C1 witnesses. -/
def sampleSave (q : List Char) (content : List Char) : SaveInput :=
  { query := q
    response :=
      { id := ("r1").data, model := ("sonar-pro").data, created := 0
        choices := [⟨0, ⟨("assistant").data, content⟩, ("stop").data⟩]
        citations := some [("https://example.org/a").data]
        related_questions := none
        usage := { prompt_tokens := 10, completion_tokens := 20, total_tokens := 30,
                   citation_tokens := none, num_search_queries := some 2,
                   reasoning_tokens := none } }
    model := .sonarPro
    systemPrompt := none
    modelRationale := some (("auto").data)
    approvedPlan := none
    timestamp := ("2024-12-01T10:00:00.000Z (UTC 10:00:00)").data
    rawStamp := ("20241201_100000").data
    savedAt := ("2024-12-01T10:00:00.000Z").data
    today := ("2024-12-01").data }

/-- Witness for C8 at a concrete input: the markdown write sits at index 1 and
the raw write precedes it at index 0. -/
theorem c8_raw_backup_first_witness :
    ∃ j, j < 1 ∧ ∃ rp d,
      (saveResearchEvents none (sampleSave ("What is Rust?").data ("Rust is a language.").data))[j]? =
        some (FsWrite.rawWrite rp d) :=
  (c8_raw_backup_first none (sampleSave ("What is Rust?").data ("Rust is a language.").data)).2
    1 (generateFilename (sampleSave ("What is Rust?").data ("Rust is a language.").data).query
        (sampleSave ("What is Rust?").data ("Rust is a language.").data).today)
    (saveContent none (sampleSave ("What is Rust?").data ("Rust is a language.").data))
    rfl

/-- Template fidelity check: the explicit-newline rendering of the synthesis
section equals the source's literal template (singular form). -/
example : generateSynthesisSection 1 ("2024-12-01").data = ("## Synthesis (Updated: 2024-12-01)\n\n*1 query in this thread*\n\n### Key Conclusions\n- *(Update after reviewing findings)*\n\n### Open Questions\n- *(What remains unresolved)*\n\n### Confidence Assessment\n- High confidence: *(topics)*\n- Needs verification: *(topics)*\n").data := by decide

/-- Template fidelity check: plural form. -/
example : generateSynthesisSection 2 ("2024-12-01").data = ("## Synthesis (Updated: 2024-12-01)\n\n*2 queries in this thread*\n\n### Key Conclusions\n- *(Update after reviewing findings)*\n\n### Open Questions\n- *(What remains unresolved)*\n\n### Confidence Assessment\n- High confidence: *(topics)*\n- Needs verification: *(topics)*\n").data := by decide

/-- Template fidelity check: the new-file header without a system prompt. -/
example : fileHeaderIntro (sampleSave ("What is Rust?").data ("x").data) =
  ("# What is Rust?\n\nResearch thread for this topic.\n\n\n---\n\n").data := by decide

/-- Template fidelity check: the new-file header with a context line. -/
example : fileHeaderIntro { sampleSave ("q").data ("x").data with systemPrompt := some ("ctx").data } =
  ("# q\n\nResearch thread for this topic.\n\nContext: ctx\n\n---\n\n").data := by decide

/-! ## Claim C1: definitions of the expected thread document -/

/-- Cleanliness of one save input (the amendment of C1): the rendered entry
body must not itself contain `## Query N:` header lines or the `## Synthesis`
marker, the query must be newline-free and marker-free, ditto the optional
system prompt, and the date string must be newline-free. Arbitrary response
content violating this can corrupt the thread (see the counterexample). -/
def cleanInput (p : SaveInput) : Prop :=
  countQueryLines (entryBody p) = 0 ∧
  isSubstr synthMarker (entryBody p) = false ∧
  ('\n' ∉ p.query) ∧
  isSubstr synthMarker p.query = false ∧
  (match p.systemPrompt with
   | some s => ('\n' ∉ s) ∧ isSubstr synthMarker s = false
   | none => True) ∧
  ('\n' ∉ p.today)

/-- The concatenation of the entries numbered from `n` on. -/
def entriesFrom (n : Nat) : List SaveInput → List Char
  | [] => []
  | p :: ps => mkEntry n p ++ entriesFrom (n + 1) ps

/-- Everything of the expected thread document before the trailing synthesis
section: new-file header from the first save, then the entries numbered from
1. -/
def threadPrefix : List SaveInput → List Char
  | [] => []
  | p :: ps => fileHeaderIntro p ++ mkEntry 1 p ++ entriesFrom 2 ps

/-- The expected whole-file content after the given (same-file) saves: absent
when no save touched the file, else the prefix plus one trailing synthesis
section. -/
def threadDoc (qs : List SaveInput) (d : List Char) : Option (List Char) :=
  match qs with
  | [] => none
  | _ => some (threadPrefix qs ++ generateSynthesisSection qs.length d)

/-! ### Line-structure lemmas -/

theorem splitLines_append_cons (a b : List Char) :
    splitLines (a ++ '\n' :: b) = splitLines a ++ splitLines b := by
  induction a with
  | nil =>
    rw [List.nil_append, splitLines]
    simp [splitLines]
  | cons c a' ih =>
    rw [List.cons_append, splitLines]
    by_cases hc : c = '\n'
    · rw [if_pos hc, ih]
      rw [splitLines, if_pos hc]
      rfl
    · rw [if_neg hc, ih]
      rw [splitLines, if_neg hc]
      rcases hrec : splitLines a' with _ | ⟨l0, ls⟩
      · exact absurd hrec (splitLines_ne_nil a')
      · rfl

theorem splitLines_no_newline (x : List Char) (hx : '\n' ∉ x) :
    splitLines x = [x] := by
  induction x with
  | nil => rfl
  | cons c rest ih =>
    rw [splitLines]
    have hc : ¬ c = '\n' := fun h => hx (h ▸ List.mem_cons_self _ _)
    rw [if_neg hc, ih (fun h => hx (List.mem_cons_of_mem _ h))]

theorem qlines_append_line (x b : List Char) (hx : '\n' ∉ x) :
    queryHeaderLines (x ++ '\n' :: b) =
      (if isQH x then [x] else []) ++ queryHeaderLines b := by
  rw [queryHeaderLines, splitLines_append_cons, List.filter_append,
    splitLines_no_newline x hx, queryHeaderLines]
  rcases h : isQH x with _ | _
  · simp [List.filter, h]
  · simp [List.filter, h]

theorem qlines_cons_newline (b : List Char) :
    queryHeaderLines ('\n' :: b) = queryHeaderLines b := by
  have := qlines_append_line [] b (by simp)
  simpa [isQH, List.isPrefixOf] using this

theorem digitChar_isDigit (k : Nat) (hk : k < 10) : (digitChar k).isDigit = true := by
  interval_cases k <;> decide

theorem natReprAux_digits (fuel : Nat) :
    ∀ (n : Nat) (c : Char), c ∈ natReprAux fuel n → c.isDigit = true := by
  induction fuel with
  | zero => intro n c hc; simp [natReprAux] at hc
  | succ fuel ih =>
    intro n c hc
    rw [natReprAux] at hc
    by_cases hn : n < 10
    · rw [if_pos hn] at hc
      rw [List.mem_singleton] at hc
      subst hc
      exact digitChar_isDigit n hn
    · rw [if_neg hn] at hc
      rcases List.mem_append.mp hc with h1 | h2
      · exact ih _ c h1
      · rw [List.mem_singleton] at h2
        subst h2
        exact digitChar_isDigit _ (Nat.mod_lt _ (by omega))

theorem natRepr_digits (n : Nat) : ∀ c ∈ natRepr n, c.isDigit = true :=
  fun c hc => natReprAux_digits (n + 1) n c hc

theorem natRepr_ne_nil (n : Nat) : natRepr n ≠ [] := by
  rw [natRepr, natReprAux]
  by_cases hn : n < 10
  · rw [if_pos hn]; simp
  · rw [if_neg hn]; simp

theorem natRepr_no_newline (n : Nat) : '\n' ∉ natRepr n := by
  intro h
  have := natRepr_digits n '\n' h
  simp [Char.isDigit] at this

/-! ### Header-line and marker lemmas -/

theorem takeWhile_digits_colon (ds : List Char) (hds : ∀ c ∈ ds, c.isDigit = true)
    (x : List Char) : (ds ++ ':' :: x).takeWhile Char.isDigit = ds := by
  induction ds with
  | nil =>
    rw [List.nil_append, List.takeWhile]
    simp [Char.isDigit]
  | cons d rest ih =>
    rw [List.cons_append, List.takeWhile]
    rw [hds d (List.mem_cons_self _ _)]
    rw [ih (fun c hc => hds c (List.mem_cons_of_mem _ hc))]

theorem no_newline_queryTitle (q : List Char) (hq : '\n' ∉ q) :
    '\n' ∉ queryTitle q := by
  rw [queryTitle]
  by_cases hl : 60 < q.length
  · rw [if_pos hl]
    intro hmem
    rcases List.mem_append.mp hmem with h1 | h2
    · exact hq (List.mem_of_mem_take h1)
    · simp at h2
  · rw [if_neg hl]
    exact hq

theorem no_newline_queryHeaderLine (n : Nat) (q : List Char) (hq : '\n' ∉ q) :
    '\n' ∉ queryHeaderLine n q := by
  rw [queryHeaderLine]
  intro hmem
  rcases List.mem_append.mp hmem with h1 | h2
  · rcases List.mem_append.mp h1 with h3 | h4
    · rcases List.mem_append.mp h3 with h5 | h6
      · simp at h5
      · exact natRepr_no_newline n h6
    · simp at h4
  · exact no_newline_queryTitle q hq h2

theorem isQH_queryHeaderLine (n : Nat) (q : List Char) :
    isQH (queryHeaderLine n q) = true := by
  rw [isQH, queryHeaderLine]
  have hpre : ("## Query ").data.isPrefixOf
      (("## Query ").data ++ natRepr n ++ (": ").data ++ queryTitle q) = true := by
    refine List.isPrefixOf_iff_prefix.mpr ?_
    rw [List.append_assoc, List.append_assoc]
    exact List.prefix_append _ _
  rw [hpre]
  have hdrop : (("## Query ").data ++ natRepr n ++ (": ").data ++ queryTitle q).drop 9 =
      natRepr n ++ ':' :: ' ' :: queryTitle q := by
    rw [List.append_assoc, List.append_assoc]
    have h9 : 9 = ("## Query ").data.length := by decide
    rw [h9, List.drop_left]
    rfl
  rw [hdrop]
  simp only
  rw [takeWhile_digits_colon (natRepr n) (natRepr_digits n)]
  have hne : (natRepr n).isEmpty = false := by
    rcases h : natRepr n with _ | _
    · exact absurd h (natRepr_ne_nil n)
    · rfl
  rw [hne]
  rw [List.drop_left]
  rfl

theorem mkEntry_unfold (n : Nat) (p : SaveInput) (rest : List Char) :
    mkEntry n p ++ rest = queryHeaderLine n p.query ++ '\n' :: (entryBody p ++ rest) := by
  rw [mkEntry]
  simp [List.append_assoc]

theorem endsNL_append (a b : List Char) (hb : ∃ Y, b = Y ++ '\n' :: []) :
    ∃ Y, a ++ b = Y ++ '\n' :: [] := by
  obtain ⟨Y, hY⟩ := hb
  exact ⟨a ++ Y, by rw [hY, ← List.append_assoc]⟩

theorem endsNL_cons (c : Char) (b : List Char) (hb : ∃ Y, b = Y ++ '\n' :: []) :
    ∃ Y, c :: b = Y ++ '\n' :: [] := by
  obtain ⟨Y, hY⟩ := hb
  exact ⟨c :: Y, by rw [hY]; rfl⟩

theorem endsNL_entryBody (p : SaveInput) : ∃ Y, entryBody p = Y ++ '\n' :: [] := by
  rw [entryBody]
  repeat first
    | refine endsNL_append _ _ ?_
    | exact ⟨[], rfl⟩
    | refine endsNL_cons _ _ ?_

theorem endsNL_fileHeaderIntro (p : SaveInput) : ∃ Y, fileHeaderIntro p = Y ++ '\n' :: [] := by
  rw [fileHeaderIntro]
  repeat first
    | refine endsNL_append _ _ ?_
    | exact ⟨[], rfl⟩
    | refine endsNL_cons _ _ ?_

theorem endsNL_synthSection (n : Nat) (d : List Char) :
    ∃ Y, generateSynthesisSection n d = Y ++ '\n' :: [] := by
  rw [generateSynthesisSection]
  repeat first
    | refine endsNL_append _ _ ?_
    | exact ⟨[], rfl⟩
    | refine endsNL_cons _ _ ?_

theorem endsNL_mkEntry (n : Nat) (p : SaveInput) : ∃ Y, mkEntry n p = Y ++ '\n' :: [] := by
  rw [mkEntry]
  refine endsNL_append _ _ ?_
  refine endsNL_cons _ _ ?_
  exact endsNL_entryBody p

theorem qlines_cont_of_endsNL (s : List Char) (hs : ∃ Y, s = Y ++ '\n' :: [])
    (hz : countQueryLines s = 0) (rest : List Char) :
    queryHeaderLines (s ++ rest) = queryHeaderLines rest := by
  obtain ⟨Y, rfl⟩ := hs
  have hshape : (Y ++ '\n' :: []) ++ rest = Y ++ '\n' :: rest := by
    rw [List.append_assoc]
    rfl
  rw [hshape, queryHeaderLines, splitLines_append_cons, List.filter_append]
  have h0 : (splitLines Y).filter isQH = [] := by
    have h1 : countQueryLines (Y ++ '\n' :: []) =
        ((splitLines Y).filter isQH).length + ((splitLines ([] : List Char)).filter isQH).length := by
      rw [countQueryLines, queryHeaderLines, splitLines_append_cons, List.filter_append,
        List.length_append]
    rw [hz] at h1
    have h2 : ((splitLines Y).filter isQH).length = 0 := by omega
    exact List.length_eq_zero.mp h2
  rw [h0]
  rfl

/-! ### Substring occurrences across appends -/

theorem isSubstr_iff_exists_drop (pat s : List Char) :
    isSubstr pat s = true ↔ ∃ j, pat.isPrefixOf (s.drop j) = true := by
  induction s with
  | nil =>
    rw [isSubstr]
    constructor
    · intro h
      refine ⟨0, ?_⟩
      cases pat with
      | nil => rfl
      | cons c r => simp [List.isEmpty] at h
    · rintro ⟨j, hj⟩
      rw [List.drop_nil] at hj
      cases pat with
      | nil => rfl
      | cons c r => simp [List.isPrefixOf] at hj
  | cons c rest ih =>
    rw [isSubstr]
    constructor
    · intro h
      rcases Bool.or_eq_true_iff.mp h with h1 | h2
      · exact ⟨0, h1⟩
      · obtain ⟨j, hj⟩ := ih.mp h2
        exact ⟨j + 1, by simpa [List.drop_succ_cons] using hj⟩
    · rintro ⟨j, hj⟩
      cases j with
      | zero => exact Bool.or_eq_true_iff.mpr (Or.inl hj)
      | succ j =>
        rw [List.drop_succ_cons] at hj
        exact Bool.or_eq_true_iff.mpr (Or.inr (ih.mpr ⟨j, hj⟩))

theorem prefix_append_split (pat z w : List Char) (h : pat <+: z ++ w) :
    pat <+: z ∨ (z <+: pat ∧ pat.drop z.length <+: w) := by
  obtain ⟨t, ht⟩ := h
  by_cases hl : pat.length ≤ z.length
  · left
    have hz : z = pat ++ t.take (z.length - pat.length) := by
      have h1 : (z ++ w).take z.length = z := List.take_left _ _
      rw [← ht] at h1
      rw [List.take_append_eq_append_take, List.take_of_length_le hl] at h1
      exact h1.symm
    exact ⟨_, hz.symm⟩
  · push_neg at hl
    refine Or.inr ⟨?_, ?_⟩
    · have hz : z = pat.take z.length := by
        have h1 : (z ++ w).take z.length = z := List.take_left _ _
        rw [← ht] at h1
        rw [List.take_append_eq_append_take] at h1
        rw [show z.length - pat.length = 0 by omega, List.take_zero, List.append_nil] at h1
        exact h1.symm
      rw [hz]
      exact List.take_prefix _ _
    · have hw : w = pat.drop z.length ++ t := by
        have h1 : (z ++ w).drop z.length = w := List.drop_left _ _
        rw [← ht] at h1
        rw [List.drop_append_eq_append_drop] at h1
        rw [show z.length - pat.length = 0 by omega, List.drop_zero] at h1
        exact h1.symm
      exact ⟨t, hw.symm⟩

theorem isSubstr_append_cases (pat a b : List Char) (h : isSubstr pat (a ++ b) = true) :
    isSubstr pat a = true ∨ isSubstr pat b = true ∨
    ∃ j, j < a.length ∧ (a.drop j) <+: pat ∧ (a.drop j).length < pat.length ∧
      (pat.drop (a.drop j).length) <+: b := by
  obtain ⟨j, hj⟩ := (isSubstr_iff_exists_drop pat (a ++ b)).mp h
  rw [ List.isPrefixOf_iff_prefix] at hj
  by_cases hja : j < a.length
  · rw [List.drop_append_of_le_length (le_of_lt hja)] at hj
    rcases prefix_append_split pat (a.drop j) b hj with h1 | ⟨h2, h3⟩
    · exact Or.inl ((isSubstr_iff_exists_drop pat a).mpr
        ⟨j, List.isPrefixOf_iff_prefix.mpr h1⟩)
    · by_cases hlen : (a.drop j).length = pat.length
      · refine Or.inl ((isSubstr_eq_true_iff pat a).mpr ?_)
        rw [← h2.eq_of_length hlen]
        exact List.IsSuffix.isInfix (List.drop_suffix j a)
      · exact Or.inr (Or.inr ⟨j, hja, h2, lt_of_le_of_ne h2.length_le hlen, h3⟩)
  · push_neg at hja
    rw [List.drop_append_eq_append_drop, List.drop_eq_nil_of_le hja, List.nil_append] at hj
    exact Or.inr (Or.inl ((isSubstr_iff_exists_drop pat b).mpr
      ⟨j - a.length, List.isPrefixOf_iff_prefix.mpr hj⟩))

theorem isSubstr_append_free_endsNL (pat a b : List Char)
    (hnl : '\n' ∉ pat) (hend : ∃ Y, a = Y ++ '\n' :: [])
    (hfa : isSubstr pat a = false) (hfb : isSubstr pat b = false) :
    isSubstr pat (a ++ b) = false := by
  by_contra hcon
  rw [Bool.not_eq_false] at hcon
  rcases isSubstr_append_cases pat a b hcon with h | h | ⟨j, hj, hpre, _, _⟩
  · rw [hfa] at h; exact Bool.false_ne_true h
  · rw [hfb] at h; exact Bool.false_ne_true h
  · obtain ⟨Y, rfl⟩ := hend
    have hj' : j ≤ Y.length := by
      rw [List.length_append] at hj
      simp at hj
      omega
    have hdrop : (Y ++ '\n' :: []).drop j = Y.drop j ++ '\n' :: [] :=
      List.drop_append_of_le_length hj'
    refine hnl (hpre.subset ?_)
    rw [hdrop]
    exact List.mem_append_right _ (List.mem_cons_self _ _)

theorem isSubstr_append_free_head (pat a b : List Char)
    (hhead : ∀ c, b.head? = some c → c ∉ pat)
    (hfa : isSubstr pat a = false) (hfb : isSubstr pat b = false) :
    isSubstr pat (a ++ b) = false := by
  by_contra hcon
  rw [Bool.not_eq_false] at hcon
  rcases isSubstr_append_cases pat a b hcon with h | h | ⟨j, hj, hpre, hlt, hcont⟩
  · rw [hfa] at h; exact Bool.false_ne_true h
  · rw [hfb] at h; exact Bool.false_ne_true h
  · have hne : pat.drop (a.drop j).length ≠ [] := by
      intro hnil
      have hlen := congrArg List.length hnil
      rw [List.length_drop] at hlen
      simp only [List.length_nil] at hlen
      omega
    obtain ⟨c, t, hct⟩ := List.exists_cons_of_ne_nil hne
    obtain ⟨w, hw⟩ := hcont
    rw [hct] at hw
    have hb : b.head? = some c := by rw [← hw]; rfl
    refine hhead c hb (List.drop_subset (a.drop j).length pat ?_)
    rw [hct]
    exact List.mem_cons_self _ _

theorem isSubstr_append_free_sfx (pat a b : List Char)
    (hz : ∀ j, j < a.length → (a.drop j).isPrefixOf pat = false)
    (hfa : isSubstr pat a = false) (hfb : isSubstr pat b = false) :
    isSubstr pat (a ++ b) = false := by
  by_contra hcon
  rw [Bool.not_eq_false] at hcon
  rcases isSubstr_append_cases pat a b hcon with h | h | ⟨j, hj, hpre, _, _⟩
  · rw [hfa] at h; exact Bool.false_ne_true h
  · rw [hfb] at h; exact Bool.false_ne_true h
  · rw [← List.isPrefixOf_iff_prefix, hz j hj] at hpre
    exact Bool.false_ne_true hpre

theorem isSubstr_false_of_head_nmem (pat s : List Char) (c₀ : Char)
    (hp : pat.head? = some c₀) (h : c₀ ∉ s) : isSubstr pat s = false := by
  induction s with
  | nil =>
    match pat, hp with
    | c :: r, _ => rfl
  | cons c rest ih =>
    rw [isSubstr, Bool.or_eq_false_iff]
    refine ⟨?_, ih (fun hm => h (List.mem_cons_of_mem _ hm))⟩
    match pat, hp with
    | c' :: r, hp =>
      have hc : c' = c₀ := by simpa using hp
      subst hc
      have hne : (c' == c) = false := by
        simp only [beq_eq_false_iff_ne, ne_eq]
        intro he
        exact h (he ▸ List.mem_cons_self _ _)
      simp [List.isPrefixOf, hne]

theorem isSubstr_cons_false (pat : List Char) (c : Char) (t : List Char) (c₀ : Char)
    (hp : pat.head? = some c₀) (hne : c₀ ≠ c) (ht : isSubstr pat t = false) :
    isSubstr pat (c :: t) = false := by
  rw [isSubstr, Bool.or_eq_false_iff]
  refine ⟨?_, ht⟩
  match pat, hp with
  | c' :: r, hp =>
    have hc : c' = c₀ := by simpa using hp
    subst hc
    have hb : (c' == c) = false := by simpa using hne
    simp [List.isPrefixOf, hb]

theorem marker_cons_nl_free (t : List Char) (ht : isSubstr synthMarker t = false) :
    isSubstr synthMarker ('\n' :: t) = false :=
  isSubstr_cons_false _ _ _ '#' rfl (by decide) ht

theorem take_free (q : List Char) (m : Nat) (hq : isSubstr synthMarker q = false) :
    isSubstr synthMarker (q.take m) = false := by
  by_contra h
  rw [Bool.not_eq_false] at h
  have hinf : synthMarker <:+: q :=
    ((isSubstr_eq_true_iff _ _).mp h).trans (List.IsPrefix.isInfix ( List.take_prefix m q))
  rw [(isSubstr_eq_true_iff synthMarker q).mpr hinf] at hq
  simp at hq

theorem trunc_free (q : List Char) (m : Nat) (hq : isSubstr synthMarker q = false) :
    isSubstr synthMarker (q.take m ++ ("...").data) = false := by
  refine isSubstr_append_free_head _ _ _ ?_ (take_free q m hq) (by decide)
  intro c hc
  have h' : (("...").data).head? = some '.' := rfl
  rw [h'] at hc
  have hc' : c = '.' := by simpa using hc.symm
  subst hc'
  decide

theorem queryTitle_free (q : List Char) (hq : isSubstr synthMarker q = false) :
    isSubstr synthMarker (queryTitle q) = false := by
  rw [queryTitle]
  split
  · exact trunc_free q 60 hq
  · exact hq

/-! ### Locating the synthesis marker -/

theorem firstIdx_append_boundary (pat a b : List Char)
    (hb : pat.isPrefixOf b = true)
    (ha : ∀ j, j < a.length → pat.isPrefixOf (a.drop j ++ b) = false) :
    firstIdx pat (a ++ b) = some a.length := by
  induction a with
  | nil =>
    cases b with
    | nil =>
      cases pat with
      | nil => rfl
      | cons c r => simp [List.isPrefixOf] at hb
    | cons c r =>
      rw [List.nil_append, firstIdx, if_pos hb]
      rfl
  | cons c a' ih =>
    rw [List.cons_append, firstIdx]
    have h0 := ha 0 (by simp)
    rw [List.drop_zero, List.cons_append] at h0
    rw [if_neg (by rw [h0]; exact Bool.false_ne_true)]
    rw [ih (fun j hj => by
      have := ha (j + 1) (by simpa using Nat.succ_lt_succ hj)
      rwa [List.drop_succ_cons] at this)]
    rfl

theorem no_straddle (P S : List Char) (hfree : isSubstr synthMarker P = false)
    (hend : ∃ Y, P = Y ++ '\n' :: []) :
    ∀ j, j < P.length → synthMarker.isPrefixOf (P.drop j ++ S) = false := by
  intro j hj
  by_contra hcon
  rw [Bool.not_eq_false, List.isPrefixOf_iff_prefix] at hcon
  rcases prefix_append_split _ _ _ hcon with h1 | ⟨h2, _⟩
  · rw [(isSubstr_iff_exists_drop synthMarker P).mpr
      ⟨j, List.isPrefixOf_iff_prefix.mpr h1⟩] at hfree
    simp at hfree
  · obtain ⟨Y, rfl⟩ := hend
    have hj' : j ≤ Y.length := by
      rw [List.length_append] at hj
      simp at hj
      omega
    have hmem : '\n' ∈ synthMarker := by
      refine h2.subset ?_
      rw [List.drop_append_of_le_length hj']
      exact List.mem_append_right _ (List.mem_cons_self _ _)
    revert hmem
    decide

theorem marker_prefix_synth (n : Nat) (d : List Char) :
    synthMarker.isPrefixOf (generateSynthesisSection n d) = true := rfl

/-! ### Trailing-separator shape of rendered entries -/

theorem trimEnd_hr (Z : List Char) :
    trimEnd (Z ++ '-' :: '-' :: '-' :: '\n' :: '\n' :: []) = Z ++ '-' :: '-' :: '-' :: [] := by
  rw [trimEnd, List.reverse_append]
  have h5 : ('-' :: '-' :: '-' :: '\n' :: '\n' :: ([] : List Char)).reverse =
      '\n' :: '\n' :: '-' :: '-' :: '-' :: [] := by decide
  rw [h5]
  rw [List.cons_append, List.cons_append, List.cons_append, List.cons_append, List.cons_append,
    List.nil_append]
  rw [List.dropWhile_cons, if_pos (by decide : isWS '\n' = true)]
  rw [List.dropWhile_cons, if_pos (by decide : isWS '\n' = true)]
  rw [List.dropWhile_cons, if_neg (by decide : ¬ isWS '-' = true)]
  rw [List.reverse_cons, List.reverse_cons, List.reverse_cons, List.reverse_reverse]
  simp [List.append_assoc]

theorem hr_of_tail (X : List Char) :
    ∃ Z, X ++ ("\n\n---\n").data ++ '\n' :: [] = Z ++ '-' :: '-' :: '-' :: '\n' :: '\n' :: [] :=
  ⟨X ++ '\n' :: '\n' :: [], by
    rw [List.append_assoc, List.append_assoc]
    exact congrArg (fun t => X ++ t) (by decide)⟩

theorem endsHr_append (a b : List Char)
    (hb : ∃ Z, b = Z ++ '-' :: '-' :: '-' :: '\n' :: '\n' :: []) :
    ∃ Z, a ++ b = Z ++ '-' :: '-' :: '-' :: '\n' :: '\n' :: [] := by
  obtain ⟨Z, hZ⟩ := hb
  exact ⟨a ++ Z, by rw [hZ, ← List.append_assoc]⟩

theorem endsHr_entryBody (p : SaveInput) :
    ∃ Z, entryBody p = Z ++ '-' :: '-' :: '-' :: '\n' :: '\n' :: [] := by
  rw [entryBody]
  exact hr_of_tail _

theorem endsHr_mkEntry (n : Nat) (p : SaveInput) :
    ∃ Z, mkEntry n p = Z ++ '-' :: '-' :: '-' :: '\n' :: '\n' :: [] := by
  rw [mkEntry]
  obtain ⟨Z, hZ⟩ := endsHr_entryBody p
  exact ⟨queryHeaderLine n p.query ++ '\n' :: Z, by rw [hZ]; simp [List.append_assoc]⟩

theorem endsHr_entriesFrom (ps : List SaveInput) :
    ∀ (n : Nat) (p : SaveInput),
      ∃ Z, entriesFrom n (p :: ps) = Z ++ '-' :: '-' :: '-' :: '\n' :: '\n' :: [] := by
  induction ps with
  | nil =>
    intro n p
    rw [entriesFrom, entriesFrom, List.append_nil]
    exact endsHr_mkEntry n p
  | cons q qs ih =>
    intro n p
    rw [entriesFrom]
    exact endsHr_append _ _ (ih (n + 1) q)

theorem endsHr_threadPrefix (qs : List SaveInput) (h : qs ≠ []) :
    ∃ Z, threadPrefix qs = Z ++ '-' :: '-' :: '-' :: '\n' :: '\n' :: [] := by
  match qs with
  | q :: ps =>
    rw [threadPrefix]
    cases ps with
    | nil =>
      rw [entriesFrom, List.append_nil]
      exact endsHr_append _ _ (endsHr_mkEntry 1 q)
    | cons r rs =>
      exact endsHr_append _ _ (endsHr_entriesFrom rs 2 r)

theorem endsNL_of_endsHr (s : List Char)
    (h : ∃ Z, s = Z ++ '-' :: '-' :: '-' :: '\n' :: '\n' :: []) :
    ∃ Y, s = Y ++ '\n' :: [] := by
  obtain ⟨Z, hZ⟩ := h
  exact ⟨Z ++ '-' :: '-' :: '-' :: '\n' :: [], by
    rw [hZ, List.append_assoc]
    exact congrArg (fun t => Z ++ t) (by decide)⟩

/-! ### Query-header analysis of rendered pieces -/

theorem qlines_nil : queryHeaderLines [] = [] := rfl

theorem isQH_hash_space (t : List Char) : isQH (("# ").data ++ t) = false := rfl

theorem isQH_ctx_line (t : List Char) : isQH (("Context: ").data ++ t) = false := rfl

theorem isQH_synth_open (d t : List Char) :
    isQH ((("## Synthesis (Updated: ").data ++ d) ++ t) = false := rfl

theorem isQH_star_line (r s t : List Char) : isQH ((('*' :: r) ++ s) ++ t) = false := rfl

theorem qlines_step (x b : List Char) (hx : '\n' ∉ x) (hq : isQH x = false) :
    queryHeaderLines (x ++ '\n' :: b) = queryHeaderLines b := by
  rw [qlines_append_line x b hx, hq]
  simp

theorem qlines_append_endsNL (a b : List Char) (ha : ∃ Y, a = Y ++ '\n' :: []) :
    queryHeaderLines (a ++ b) = queryHeaderLines a ++ queryHeaderLines b := by
  obtain ⟨Y, rfl⟩ := ha
  have h1 : (Y ++ '\n' :: []) ++ b = Y ++ '\n' :: b := by simp [List.append_assoc]
  rw [h1, queryHeaderLines, queryHeaderLines, queryHeaderLines,
    splitLines_append_cons, splitLines_append_cons, List.filter_append, List.filter_append]
  have h2 : (splitLines ([] : List Char)).filter isQH = [] := by decide
  rw [h2, List.append_nil]

theorem nl_head_nmem_marker (t : List Char) (c : Char) (hc : ('\n' :: t).head? = some c) :
    c ∉ synthMarker := by
  have h : c = '\n' := by simpa using hc.symm
  subst h
  decide

theorem hash_nmem_natRepr (n : Nat) : '#' ∉ natRepr n := by
  intro h
  have := natRepr_digits n '#' h
  simp [Char.isDigit] at this

theorem marker_free_natRepr (n : Nat) : isSubstr synthMarker (natRepr n) = false :=
  isSubstr_false_of_head_nmem _ _ '#' rfl (hash_nmem_natRepr n)

theorem headerLine_free (n : Nat) (q : List Char) (hq : isSubstr synthMarker q = false) :
    isSubstr synthMarker (queryHeaderLine n q) = false := by
  rw [queryHeaderLine, List.append_assoc, List.append_assoc]
  refine isSubstr_append_free_sfx _ _ _ (by decide) (by decide) ?_
  refine isSubstr_append_free_head _ _ _ ?_ (marker_free_natRepr n) ?_
  · intro c hc
    have h0 : (((": ").data ++ queryTitle q)).head? = some ':' := rfl
    rw [h0] at hc
    have h1 : c = ':' := by simpa using hc.symm
    subst h1
    decide
  · exact isSubstr_append_free_sfx _ _ _ (by decide) (by decide) (queryTitle_free q hq)

theorem mkEntry_free (n : Nat) (p : SaveInput) (hq : isSubstr synthMarker p.query = false)
    (hbody : isSubstr synthMarker (entryBody p) = false) :
    isSubstr synthMarker (mkEntry n p) = false := by
  rw [mkEntry]
  exact isSubstr_append_free_head _ _ _ (fun c hc => nl_head_nmem_marker _ c hc)
    (headerLine_free n p.query hq) (marker_cons_nl_free _ hbody)

theorem qlines_mkEntry (n : Nat) (p : SaveInput) (hq : '\n' ∉ p.query)
    (hbody : countQueryLines (entryBody p) = 0) :
    queryHeaderLines (mkEntry n p) = [queryHeaderLine n p.query] := by
  rw [mkEntry, qlines_append_line _ _ (no_newline_queryHeaderLine n p.query hq),
    isQH_queryHeaderLine]
  have hb : queryHeaderLines (entryBody p) = [] := List.length_eq_zero.mp hbody
  rw [hb]
  simp

/-! ### The new-file header and the synthesis section, line by line -/

theorem fileHeaderIntro_shape (p : SaveInput) :
    fileHeaderIntro p =
      ("# ").data ++
        ((if 80 < p.query.length then p.query.take 80 ++ ("...").data else p.query) ++
          '\n' :: '\n' :: (("Research thread for this topic.").data ++
            '\n' :: ((match p.systemPrompt with
                      | some s => if s ≠ [] then '\n' :: ("Context: ").data ++ s else []
                      | none => []) ++
              '\n' :: '\n' :: (("---").data ++ '\n' :: '\n' :: [])))) := by
  rw [fileHeaderIntro]
  simp [List.append_assoc]

theorem no_newline_title80 (q : List Char) (hq : '\n' ∉ q) :
    '\n' ∉ (if 80 < q.length then q.take 80 ++ ("...").data else q) := by
  split
  · intro hmem
    rcases List.mem_append.mp hmem with h1 | h2
    · exact hq (List.mem_of_mem_take h1)
    · simp at h2
  · exact hq

theorem title80_free (q : List Char) (hq : isSubstr synthMarker q = false) :
    isSubstr synthMarker (if 80 < q.length then q.take 80 ++ ("...").data else q) = false := by
  split
  · exact trunc_free q 80 hq
  · exact hq

theorem fileHeaderIntro_free (p : SaveInput) (hq : isSubstr synthMarker p.query = false)
    (hsp : ∀ s, p.systemPrompt = some s → isSubstr synthMarker s = false) :
    isSubstr synthMarker (fileHeaderIntro p) = false := by
  rw [fileHeaderIntro_shape]
  refine isSubstr_append_free_sfx _ _ _ (by decide) (by decide) ?_
  refine isSubstr_append_free_head _ _ _ (fun c hc => nl_head_nmem_marker _ c hc)
    (title80_free p.query hq) ?_
  refine marker_cons_nl_free _ (marker_cons_nl_free _ ?_)
  refine isSubstr_append_free_head _ _ _ (fun c hc => nl_head_nmem_marker _ c hc)
    (by decide) ?_
  refine marker_cons_nl_free _ ?_
  split
  · rename_i s hps
    split
    · rename_i hs
      have hm : (('\n' :: ("Context: ").data ++ s)) ++
          '\n' :: '\n' :: (("---").data ++ '\n' :: '\n' :: []) =
          '\n' :: (("Context: ").data ++
            (s ++ '\n' :: '\n' :: (("---").data ++ '\n' :: '\n' :: []))) := by
        simp [List.append_assoc]
      rw [hm]
      refine marker_cons_nl_free _ ?_
      refine isSubstr_append_free_sfx _ _ _ (by decide) (by decide) ?_
      refine isSubstr_append_free_head _ _ _ (fun c hc => nl_head_nmem_marker _ c hc)
        (hsp s hps) (by decide)
    · rw [List.nil_append]
      decide
  · rw [List.nil_append]
    decide

theorem qlines_fileHeaderIntro (p : SaveInput) (hq : '\n' ∉ p.query)
    (hsp : ∀ s, p.systemPrompt = some s → '\n' ∉ s) :
    queryHeaderLines (fileHeaderIntro p) = [] := by
  rw [fileHeaderIntro_shape]
  have h1 : ("# ").data ++
      ((if 80 < p.query.length then p.query.take 80 ++ ("...").data else p.query) ++
        '\n' :: '\n' :: (("Research thread for this topic.").data ++
          '\n' :: ((match p.systemPrompt with
                    | some s => if s ≠ [] then '\n' :: ("Context: ").data ++ s else []
                    | none => []) ++
            '\n' :: '\n' :: (("---").data ++ '\n' :: '\n' :: [])))) =
      (("# ").data ++
        (if 80 < p.query.length then p.query.take 80 ++ ("...").data else p.query)) ++
        '\n' :: ('\n' :: (("Research thread for this topic.").data ++
          '\n' :: ((match p.systemPrompt with
                    | some s => if s ≠ [] then '\n' :: ("Context: ").data ++ s else []
                    | none => []) ++
            '\n' :: '\n' :: (("---").data ++ '\n' :: '\n' :: [])))) := by
    simp [List.append_assoc]
  rw [h1, qlines_step _ _ ?hx1 (isQH_hash_space _)]
  case hx1 =>
    intro hmem
    rcases List.mem_append.mp hmem with h2 | h3
    · simp at h2
    · exact no_newline_title80 p.query hq h3
  rw [qlines_cons_newline]
  rw [qlines_step _ _ (by decide) (by decide)]
  split
  · rename_i s hps
    split
    · rename_i hs
      have hm : (('\n' :: ("Context: ").data ++ s)) ++
          '\n' :: '\n' :: (("---").data ++ '\n' :: '\n' :: []) =
          '\n' :: ((("Context: ").data ++ s) ++
            '\n' :: ('\n' :: (("---").data ++ '\n' :: '\n' :: []))) := by
        simp [List.append_assoc]
      rw [hm, qlines_cons_newline]
      rw [qlines_step _ _ ?hx2 (isQH_ctx_line _)]
      case hx2 =>
        intro hmem
        rcases List.mem_append.mp hmem with h2 | h3
        · simp at h2
        · exact hsp s hps h3
      rw [qlines_cons_newline]
      decide
    · rw [List.nil_append]
      decide
  · rw [List.nil_append]
    decide

theorem synth_shape (n : Nat) (d : List Char) :
    generateSynthesisSection n d =
      (("## Synthesis (Updated: ").data ++ d ++ (")").data) ++
      '\n' :: '\n' :: ((('*' :: natRepr n) ++
          (if n = 1 then (" query").data else (" queries").data) ++ (" in this thread*").data) ++
        '\n' :: '\n' :: (("### Key Conclusions").data ++
          '\n' :: (("- *(Update after reviewing findings)*").data ++
            '\n' :: '\n' :: (("### Open Questions").data ++
              '\n' :: (("- *(What remains unresolved)*").data ++
                '\n' :: '\n' :: (("### Confidence Assessment").data ++
                  '\n' :: (("- High confidence: *(topics)*").data ++
                    '\n' :: (("- Needs verification: *(topics)*").data ++ '\n' :: [])))))))) := by
  rw [generateSynthesisSection]
  simp [List.append_assoc]

theorem qlines_synth (n : Nat) (d : List Char) (hd : '\n' ∉ d) :
    queryHeaderLines (generateSynthesisSection n d) = [] := by
  rw [synth_shape]
  rw [qlines_step _ _ ?hx1 (isQH_synth_open _ _)]
  case hx1 =>
    intro hmem
    rcases List.mem_append.mp hmem with h1 | h2
    · rcases List.mem_append.mp h1 with h3 | h4
      · simp at h3
      · exact hd h4
    · simp at h2
  rw [qlines_cons_newline]
  rw [qlines_step _ _ ?hx2 (isQH_star_line _ _ _)]
  case hx2 =>
    intro hmem
    rcases List.mem_append.mp hmem with h1 | h2
    · rcases List.mem_append.mp h1 with h3 | h4
      · rcases List.mem_cons.mp h3 with h5 | h6
        · simp at h5
        · exact natRepr_no_newline n h6
      · revert h4
        split <;> decide
    · simp at h2
  rw [qlines_cons_newline]
  decide

/-! ### Aggregates over the expected thread document -/

/-- The header lines the spec predicts for entries 1..N (spec-side reference). -/
def headersOf (qs : List SaveInput) : List (List Char) :=
  qs.mapIdx (fun i p => queryHeaderLine (i + 1) p.query)

theorem entriesFrom_free (ps : List SaveInput) :
    ∀ n, (∀ p ∈ ps, cleanInput p) → isSubstr synthMarker (entriesFrom n ps) = false := by
  induction ps with
  | nil => intro n h; rfl
  | cons p ps ih =>
    intro n h
    have hp := h p (List.mem_cons_self _ _)
    rw [entriesFrom]
    exact isSubstr_append_free_endsNL _ _ _ (by decide) (endsNL_mkEntry n p)
      (mkEntry_free n p hp.2.2.2.1 hp.2.1)
      (ih (n + 1) (fun r hr => h r (List.mem_cons_of_mem _ hr)))

theorem threadPrefix_free (qs : List SaveInput) (h : ∀ p ∈ qs, cleanInput p) :
    isSubstr synthMarker (threadPrefix qs) = false := by
  match qs with
  | [] => rfl
  | q :: ps =>
    have hq := h q (List.mem_cons_self _ _)
    have hsp : ∀ s, q.systemPrompt = some s → isSubstr synthMarker s = false := by
      intro s hs
      have := hq.2.2.2.2.1
      rw [hs] at this
      exact this.2
    rw [threadPrefix, List.append_assoc]
    refine isSubstr_append_free_endsNL _ _ _ (by decide) (endsNL_fileHeaderIntro q)
      (fileHeaderIntro_free q hq.2.2.2.1 hsp) ?_
    exact isSubstr_append_free_endsNL _ _ _ (by decide) (endsNL_mkEntry 1 q)
      (mkEntry_free 1 q hq.2.2.2.1 hq.2.1)
      (entriesFrom_free ps 2 (fun r hr => h r (List.mem_cons_of_mem _ hr)))

theorem qlines_entriesFrom (ps : List SaveInput) :
    ∀ n, (∀ p ∈ ps, cleanInput p) →
      queryHeaderLines (entriesFrom n ps) =
        ps.mapIdx (fun i p => queryHeaderLine (n + i) p.query) := by
  induction ps with
  | nil => intro n h; rw [entriesFrom, qlines_nil]; rfl
  | cons p ps ih =>
    intro n h
    have hp := h p (List.mem_cons_self _ _)
    rw [entriesFrom, qlines_append_endsNL _ _ (endsNL_mkEntry n p),
      qlines_mkEntry n p hp.2.2.1 hp.1,
      ih (n + 1) (fun r hr => h r (List.mem_cons_of_mem _ hr)),
      List.mapIdx_cons, List.singleton_append]
    congr 1
    refine congrArg (fun f => List.mapIdx f ps) ?_
    funext i r
    have he : n + (i + 1) = n + 1 + i := by omega
    rw [he]

theorem qlines_threadPrefix (qs : List SaveInput) (h : ∀ p ∈ qs, cleanInput p) :
    queryHeaderLines (threadPrefix qs) = headersOf qs := by
  match qs with
  | [] => rfl
  | q :: ps =>
    have hq := h q (List.mem_cons_self _ _)
    have hsp : ∀ s, q.systemPrompt = some s → '\n' ∉ s := by
      intro s hs
      have := hq.2.2.2.2.1
      rw [hs] at this
      exact this.1
    rw [threadPrefix, List.append_assoc,
      qlines_append_endsNL _ _ (endsNL_fileHeaderIntro q),
      qlines_fileHeaderIntro q hq.2.2.1 hsp, List.nil_append,
      qlines_append_endsNL _ _ (endsNL_mkEntry 1 q),
      qlines_mkEntry 1 q hq.2.2.1 hq.1,
      qlines_entriesFrom ps 2 (fun r hr => h r (List.mem_cons_of_mem _ hr)),
      headersOf, List.mapIdx_cons, List.singleton_append]
    congr 1
    refine congrArg (fun f => List.mapIdx f ps) ?_
    funext i r
    have he : 2 + i = i + 1 + 1 := by omega
    rw [he]

theorem countQueryLines_doc (qs : List SaveInput) (d : List Char)
    (h : ∀ p ∈ qs, cleanInput p) (hd : '\n' ∉ d) :
    countQueryLines (threadPrefix qs ++ generateSynthesisSection qs.length d) = qs.length := by
  match qs with
  | [] =>
    rw [threadPrefix, List.nil_append, countQueryLines, qlines_synth _ _ hd]
    rfl
  | q :: ps =>
    rw [countQueryLines,
      qlines_append_endsNL _ _
        (endsNL_of_endsHr _ (endsHr_threadPrefix (q :: ps) (by simp))),
      qlines_threadPrefix _ h, qlines_synth _ _ hd, List.append_nil, headersOf,
      List.length_mapIdx]

theorem removeSynthesisSection_eq_some (c : List Char) (i : Nat)
    (h : firstIdx synthMarker c = some i) :
    removeSynthesisSection c = trimEnd (c.take i) ++ ("\n\n").data := by
  rw [removeSynthesisSection, h]

theorem firstIdx_doc (qs : List SaveInput) (d : List Char) (hne : qs ≠ [])
    (h : ∀ p ∈ qs, cleanInput p) :
    firstIdx synthMarker (threadPrefix qs ++ generateSynthesisSection qs.length d) =
      some (threadPrefix qs).length :=
  firstIdx_append_boundary _ _ _ (marker_prefix_synth _ _)
    (no_straddle _ _ (threadPrefix_free qs h)
      (endsNL_of_endsHr _ (endsHr_threadPrefix qs hne)))

theorem remove_doc (qs : List SaveInput) (d : List Char) (hne : qs ≠ [])
    (h : ∀ p ∈ qs, cleanInput p) :
    removeSynthesisSection (threadPrefix qs ++ generateSynthesisSection qs.length d) =
      threadPrefix qs := by
  rw [removeSynthesisSection_eq_some _ _ (firstIdx_doc qs d hne h), List.take_left]
  obtain ⟨Z, hZ⟩ := endsHr_threadPrefix qs hne
  rw [hZ, trimEnd_hr, List.append_assoc]
  exact congrArg (fun t => Z ++ t) (by decide)

theorem entriesFrom_snoc (ps : List SaveInput) :
    ∀ (n : Nat) (p : SaveInput),
      entriesFrom n (ps ++ [p]) = entriesFrom n ps ++ mkEntry (n + ps.length) p := by
  induction ps with
  | nil =>
    intro n p
    simp [entriesFrom]
  | cons q qs ih =>
    intro n p
    rw [List.cons_append, entriesFrom, ih (n + 1) p, entriesFrom, List.append_assoc,
      List.length_cons]
    congr 3
    omega

theorem threadPrefix_snoc (qs : List SaveInput) (p : SaveInput) (hne : qs ≠ []) :
    threadPrefix (qs ++ [p]) = threadPrefix qs ++ mkEntry (qs.length + 1) p := by
  match qs with
  | q :: ps =>
    rw [List.cons_append, threadPrefix, threadPrefix, entriesFrom_snoc ps 2 p]
    have he : 2 + ps.length = (q :: ps).length + 1 := by
      rw [List.length_cons]
      omega
    rw [he]
    simp [List.append_assoc]

/-! ### Folding saveResearch calls -/

theorem saveContent_none (p : SaveInput) :
    saveContent none p =
      fileHeaderIntro p ++ mkEntry 1 p ++ generateSynthesisSection 1 p.today := rfl

theorem saveContent_some (c : List Char) (p : SaveInput) :
    saveContent (some c) p =
      removeSynthesisSection c ++ mkEntry (countQueryLines c + 1) p ++
        generateSynthesisSection (countQueryLines c + 1) p.today := rfl

theorem saveContent_threadDoc_step (qs : List SaveInput) (p : SaveInput) (d : List Char)
    (hne : qs ≠ []) (h : ∀ r ∈ qs, cleanInput r ∧ r.today = d) (hp : p.today = d) :
    saveContent (some (threadPrefix qs ++ generateSynthesisSection qs.length d)) p =
      threadPrefix (qs ++ [p]) ++ generateSynthesisSection (qs ++ [p]).length d := by
  have hclean : ∀ r ∈ qs, cleanInput r := fun r hr => (h r hr).1
  have hd : '\n' ∉ d := by
    match qs, hne with
    | q :: ps, _ =>
      have hq := h q (List.mem_cons_self _ _)
      exact hq.2 ▸ hq.1.2.2.2.2.2
  rw [saveContent_some, countQueryLines_doc qs d hclean hd, remove_doc qs d hne hclean,
    threadPrefix_snoc qs p hne, hp]
  have hlen : (qs ++ [p]).length = qs.length + 1 := by simp
  rw [hlen]

/-- The sequence of file contents produced by saving into one file repeatedly
(the per-file trace of `saveResearch`). -/
def foldSave (qs : List SaveInput) : Option (List Char) :=
  qs.foldl (fun acc p => some (saveContent acc p)) none

/-- The saves of a session that touch the given thread file. -/
def trackedOf (ps : List SaveInput) (fn : List Char) : List SaveInput :=
  ps.filter (fun p => decide (generateFilename p.query p.today = fn))

theorem foldl_saveStep (ps : List SaveInput) (fs : ResearchFS) (fn : List Char) :
    (ps.foldl saveStepFS fs) fn =
      (trackedOf ps fn).foldl (fun acc p => some (saveContent acc p)) (fs fn) := by
  induction ps generalizing fs with
  | nil => rfl
  | cons p ps ih =>
    rw [List.foldl_cons, ih]
    simp only [trackedOf, List.filter_cons]
    by_cases hg : generateFilename p.query p.today = fn
    · rw [if_pos (by simpa using hg)]
      have hacc : saveStepFS fs p fn = some (saveContent (fs fn) p) := by
        simp only [saveStepFS]
        rw [if_pos hg.symm, hg]
      rw [List.foldl_cons, hacc]
    · rw [if_neg (by simpa using hg)]
      have hacc : saveStepFS fs p fn = fs fn := by
        simp only [saveStepFS]
        rw [if_neg (fun he => hg he.symm)]
      rw [hacc]

theorem foldSave_threadDoc (qs : List SaveInput) (d : List Char)
    (h : ∀ p ∈ qs, cleanInput p ∧ p.today = d) :
    foldSave qs = threadDoc qs d := by
  induction qs using List.reverseRecOn with
  | nil => rfl
  | append_singleton qs p ih =>
    have hqs : ∀ r ∈ qs, cleanInput r ∧ r.today = d :=
      fun r hr => h r (List.mem_append_left _ hr)
    have hp : cleanInput p ∧ p.today = d :=
      h p (List.mem_append_right _ (List.mem_cons_self _ _))
    rw [foldSave, List.foldl_append, List.foldl_cons, List.foldl_nil, ← foldSave, ih hqs]
    cases qs with
    | nil =>
      have h0 : threadDoc ([] : List SaveInput) d = none := rfl
      rw [h0, List.nil_append]
      have h1 : threadDoc [p] d =
          some (threadPrefix [p] ++ generateSynthesisSection 1 d) := rfl
      rw [h1]
      have h2 : threadPrefix [p] = fileHeaderIntro p ++ mkEntry 1 p := by
        rw [threadPrefix, entriesFrom, List.append_nil]
      rw [h2, saveContent_none, hp.2]
    | cons q ps =>
      have hne : (q :: ps) ≠ [] := by simp
      have h3 : threadDoc (q :: ps) d =
          some (threadPrefix (q :: ps) ++ generateSynthesisSection (q :: ps).length d) := rfl
      rw [h3, saveContent_threadDoc_step (q :: ps) p d hne hqs hp.2]
      rfl

/-- C1 (amended): consider a session of `saveResearch` calls `ps` and the thread
file `fn`; suppose every save that touches `fn` is CLEAN — its rendered entry
body contains no `## Query N:` header line and no `## Synthesis` marker, its
query and date are newline-free, query and optional system prompt are
marker-free — and carries the same date `d`. Then, with `qs` the saves that
touch `fn` (in order): the file equals the expected thread document (new-file
header from the first save, then the entries in order, then one synthesis
section); it contains exactly `qs.length` query header lines, which are
exactly `## Query k: <title>` for `k = 1..N` in save order; the `## Synthesis`
marker first occurs exactly where the trailing synthesis section starts and
never inside the entries; and a further save only APPENDS a new entry after
the existing ones (entries are never mutated), regardless of interleaved
saves to other files. The cleanliness hypothesis is necessary: the claim's
original "regardless of the content of the saved responses" is refuted by the
header-injection counterexample. -/
theorem c1_thread_append_growth (ps : List SaveInput) (fn d : List Char)
    (h : ∀ p ∈ ps, generateFilename p.query p.today = fn → cleanInput p ∧ p.today = d) :
    runSaves ps fn = threadDoc (trackedOf ps fn) d ∧
    countQueriesInThread (runSaves ps fn) = (trackedOf ps fn).length ∧
    (∀ c, runSaves ps fn = some c →
      queryHeaderLines c = headersOf (trackedOf ps fn) ∧
      firstIdx synthMarker c = some (threadPrefix (trackedOf ps fn)).length ∧
      isSubstr synthMarker (threadPrefix (trackedOf ps fn)) = false ∧
      c = threadPrefix (trackedOf ps fn) ++
        generateSynthesisSection (trackedOf ps fn).length d) ∧
    (∀ p, trackedOf ps fn ≠ [] →
      threadPrefix (trackedOf ps fn ++ [p]) =
        threadPrefix (trackedOf ps fn) ++ mkEntry ((trackedOf ps fn).length + 1) p) := by
  have htr : ∀ p ∈ trackedOf ps fn, cleanInput p ∧ p.today = d := by
    intro p hp
    rw [trackedOf, List.mem_filter] at hp
    exact h p hp.1 (by simpa using hp.2)
  have h1 : runSaves ps fn = threadDoc (trackedOf ps fn) d := by
    rw [runSaves, foldl_saveStep]
    exact foldSave_threadDoc _ d htr
  refine ⟨h1, ?_, ?_, ?_⟩
  · rw [h1]
    cases htr2 : trackedOf ps fn with
    | nil => rfl
    | cons q qs' =>
      rw [htr2] at htr
      have hq := htr q (List.mem_cons_self _ _)
      have hd : '\n' ∉ d := hq.2 ▸ hq.1.2.2.2.2.2
      have h3 : threadDoc (q :: qs') d =
          some (threadPrefix (q :: qs') ++ generateSynthesisSection (q :: qs').length d) := rfl
      rw [h3]
      have h4 : countQueriesInThread (some (threadPrefix (q :: qs') ++
          generateSynthesisSection (q :: qs').length d)) =
          countQueryLines (threadPrefix (q :: qs') ++
            generateSynthesisSection (q :: qs').length d) := rfl
      rw [h4, countQueryLines_doc _ _ (fun r hr => (htr r hr).1) hd]
  · intro c hc
    rw [h1] at hc
    cases htr2 : trackedOf ps fn with
    | nil =>
      rw [htr2] at hc
      simp [threadDoc] at hc
    | cons q qs' =>
      rw [htr2] at hc htr
      have hclean : ∀ r ∈ q :: qs', cleanInput r := fun r hr => (htr r hr).1
      have hq := htr q (List.mem_cons_self _ _)
      have hd : '\n' ∉ d := hq.2 ▸ hq.1.2.2.2.2.2
      have h3 : threadDoc (q :: qs') d =
          some (threadPrefix (q :: qs') ++ generateSynthesisSection (q :: qs').length d) := rfl
      rw [h3] at hc
      have hceq := Option.some.inj hc
      subst hceq
      refine ⟨?_, firstIdx_doc _ d (by simp) hclean, threadPrefix_free _ hclean, rfl⟩
      rw [qlines_append_endsNL _ _
          (endsNL_of_endsHr _ (endsHr_threadPrefix _ (by simp))),
        qlines_threadPrefix _ hclean, qlines_synth _ _ hd, List.append_nil]
  · intro p hne
    exact threadPrefix_snoc _ p hne

/-- C1 counterexample at a concrete input: a single save whose RESPONSE CONTENT
contains the line `## Query 7: injected` yields a thread file with TWO
`## Query` header lines after one save (and the injected header is neither
numbered 1 nor derived from a query), contradicting the claim that N saves to
the same slug produce exactly N headers numbered 1..N regardless of the
content of the saved responses. -/
theorem c1_counterexample_header_injection :
    countQueriesInThread
        (runSaves
          [sampleSave ("rust ownership").data ("See\n## Query 7: injected\nmore").data]
          (generateFilename ("rust ownership").data ("2024-12-01").data)) = 2 ∧
    (trackedOf
        [sampleSave ("rust ownership").data ("See\n## Query 7: injected\nmore").data]
        (generateFilename ("rust ownership").data ("2024-12-01").data)).length = 1 := by
  decide

/-- Witness for C1 at a concrete input: three saves, the middle one to a
different topic, with clean inputs; the tracked thread file equals the
expected two-entry document. -/
theorem c1_thread_append_growth_witness :
    runSaves
        [sampleSave ("rust ownership").data ("Alpha finding.").data,
         sampleSave ("zig comptime").data ("Beta finding.").data,
         sampleSave ("rust ownership").data ("Gamma finding.").data]
        (generateFilename ("rust ownership").data ("2024-12-01").data) =
      threadDoc
        (trackedOf
          [sampleSave ("rust ownership").data ("Alpha finding.").data,
           sampleSave ("zig comptime").data ("Beta finding.").data,
           sampleSave ("rust ownership").data ("Gamma finding.").data]
          (generateFilename ("rust ownership").data ("2024-12-01").data))
        (("2024-12-01").data) :=
  (c1_thread_append_growth _ _ _ (by
    intro p hp hgen
    simp only [List.mem_cons, List.not_mem_nil, or_false] at hp
    rcases hp with rfl | rfl | rfl
    · exact ⟨⟨by decide, by decide, by decide, by decide, trivial, by decide⟩, rfl⟩
    · exact absurd hgen (by decide)
    · exact ⟨⟨by decide, by decide, by decide, by decide, trivial, by decide⟩, rfl⟩)).1
